import Mathlib

/-!
Verification of the anyclaude protocol-translation core against its design
specification.

The development shallowly embeds three parts of the source:

* the History Normalizer `filterDuplicateToolCalls` (file `filter-duplicates.ts`)
  together with its consistency validator `validateToolCallConsistency`;
* the Schema Adapter `providerizeSchema` (file `json-schema.ts`);
* the Stream Translator `convertToAnthropicStream`
  (file `convert-to-anthropic-stream.ts`) and the per-chunk error rewrite the
  proxy applies to streamed chunks before emission (file `anthropic-proxy.ts`).

Conversations are lists of messages; JavaScript iteration with index
(`forEach`, `map`, `filter` with the index argument) is rendered as structural
recursion carrying the explicit index, and JavaScript `Map` / `Set` values are
rendered as association lists / first-occurrence-ordered lists, matching their
insertion-order iteration semantics.
-/

namespace Anyclaude

/-! ## Data model of conversations

Modelled from the spec: the type `AnthropicMessage` lives in the repository
file `anthropic-api-types.ts`, which is not part of the sources given here.
The spec describes a Message as a role (`user` | `assistant`) together with a
sequence of content items drawn from one tagged union `text` / `tool_use` /
`tool_result`; the normalizer source additionally guards every access with
`Array.isArray(msg.content)`, so a message body may also be a plain string.
-/

inductive Role where
  | user
  | assistant
deriving DecidableEq, Repr

/-- One content item of a message.  `toolUse` carries the call id, tool name
and input; `toolResult` carries the referenced `tool_use_id` and the result
payload.  `other` stands for any further content type (e.g. thinking blocks),
which the normalizer never inspects. -/
inductive ContentItem where
  | text (s : String)
  | toolUse (id name input : String)
  | toolResult (toolUseId content : String)
  | other (payload : String)
deriving DecidableEq, Repr

/-- A message body: either a plain string or an array of content items. -/
inductive MessageContent where
  | str (s : String)
  | items (l : List ContentItem)
deriving DecidableEq, Repr

structure Message where
  role : Role
  content : MessageContent
deriving DecidableEq, Repr

/-- The id selected by the tool-call scan: `tool_use` items only. -/
def toolUseId : ContentItem → Option String
  | .toolUse id _ _ => some id
  | _ => none

/-- The id selected by the tool-result scan: `tool_result` items only. -/
def toolResultId : ContentItem → Option String
  | .toolResult id _ => some id
  | _ => none

/-! ## Step 1 / Step 2 of `filterDuplicateToolCalls`: the duplicate scans

The source walks `messages.forEach((msg, msgIndex) => ... msg.content.forEach(
(item, contentIndex) => ...))`, keeping a `Map` from each id to its first
occurrence position and a `Set` of duplicate positions `(msgIndex, contentIndex)`.
Both passes (tool calls in assistant messages, tool results in user messages)
share this shape, so the scan is defined once, parameterised by the role it
looks at and the selector extracting the id it tracks. -/

/-- Scan of the items of one message (the inner `forEach`), starting at content
index `j`: `first` is the first-occurrence map, `dups` the set of duplicate
positions, both extended exactly as in the source. -/
def scanItems (sel : ContentItem → Option String) (i : Nat) :
    Nat → List (String × Nat × Nat) → List (Nat × Nat) → List ContentItem →
    List (String × Nat × Nat) × List (Nat × Nat)
  | _, first, dups, [] => (first, dups)
  | j, first, dups, item :: rest =>
    match sel item with
    | some id =>
      match first.lookup id with
      | some _ => scanItems sel i (j + 1) first (dups ++ [(i, j)]) rest
      | none => scanItems sel i (j + 1) (first ++ [(id, (i, j))]) dups rest
    | none => scanItems sel i (j + 1) first dups rest

/-- Scan of the whole conversation (the outer `forEach`), starting at message
index `i`; only messages of role `role` whose content is an array are read. -/
def scanMessages (role : Role) (sel : ContentItem → Option String) :
    Nat → List (String × Nat × Nat) → List (Nat × Nat) → List Message →
    List (String × Nat × Nat) × List (Nat × Nat)
  | _, first, dups, [] => (first, dups)
  | i, first, dups, msg :: rest =>
    match msg with
    | ⟨r, .items l⟩ =>
      if r = role then
        let fd := scanItems sel i 0 first dups l
        scanMessages role sel (i + 1) fd.1 fd.2 rest
      else scanMessages role sel (i + 1) first dups rest
    | _ => scanMessages role sel (i + 1) first dups rest

/-! ## Step 3: filtering the marked positions -/

/-- `content.filter((item, contentIndex) => !dups.has(msgIndex + ":" + contentIndex))`. -/
def filterItems (dups : List (Nat × Nat)) (i : Nat) : Nat → List ContentItem → List ContentItem
  | _, [] => []
  | j, item :: rest =>
    if (i, j) ∈ dups then filterItems dups i (j + 1) rest
    else item :: filterItems dups i (j + 1) rest

/-- The `messages.map((msg, msgIndex) => ...)` of Step 3: assistant array
messages are filtered against the duplicate tool-call positions, user array
messages against the duplicate tool-result positions, everything else is
returned unchanged.  (The source returns the original object when nothing was
removed, which yields the same value.) -/
def filterMessages (dupCalls dupResults : List (Nat × Nat)) : Nat → List Message → List Message
  | _, [] => []
  | i, msg :: rest =>
    (match msg with
      | ⟨.assistant, .items l⟩ => ⟨.assistant, .items (filterItems dupCalls i 0 l)⟩
      | ⟨.user, .items l⟩ => ⟨.user, .items (filterItems dupResults i 0 l)⟩
      | m => m) :: filterMessages dupCalls dupResults (i + 1) rest

/-! ## Step 4: `validateToolCallConsistency` -/

/-- Ids of the selected kind occurring in array messages of the given role, in
conversation order (the source's `toolCallOrder` / `toolResultOrder` arrays). -/
def collectIds (role : Role) (sel : ContentItem → Option String) : List Message → List String
  | [] => []
  | msg :: rest =>
    (match msg with
      | ⟨r, .items l⟩ => if r = role then l.filterMap sel else []
      | _ => []) ++ collectIds role sel rest

/-- First-occurrence deduplication with an initial `seen` list: adding a list
of ids to a JavaScript `Set` and iterating it yields exactly this order. -/
def dedupIds (seen : List String) : List String → List String
  | [] => []
  | id :: rest => if id ∈ seen then dedupIds seen rest else id :: dedupIds (seen ++ [id]) rest

structure ToolCallValidation where
  toolCalls : List String
  toolResults : List String
  orphanedResults : List String
  callsWithoutResults : List String
  orderPreserved : Bool
  toolCallOrder : List String
  toolResultOrder : List String
deriving Repr

/-- `validateToolCallConsistency(messages)` of the source: collects the call and
result ids (set and order list), the orphaned results, the calls without
results, and the advisory order check. -/
def validateToolCallConsistency (messages : List Message) : ToolCallValidation :=
  let toolCallOrder := collectIds .assistant toolUseId messages
  let toolResultOrder := collectIds .user toolResultId messages
  let toolCalls := dedupIds [] toolCallOrder
  let toolResults := dedupIds [] toolResultOrder
  let orphanedResults := toolResults.filter (fun r => decide (r ∉ toolCalls))
  let callsWithoutResults := toolCalls.filter (fun c => decide (c ∉ toolResults))
  let commonIds := toolCallOrder.filter (fun id => decide (id ∈ toolResults))
  let resultOrderForCommon := toolResultOrder.filter (fun id => decide (id ∈ toolCalls))
  { toolCalls := toolCalls
    toolResults := toolResults
    orphanedResults := orphanedResults
    callsWithoutResults := callsWithoutResults
    orderPreserved := decide (commonIds = resultOrderForCommon)
    toolCallOrder := toolCallOrder
    toolResultOrder := toolResultOrder }

/-- `filterDuplicateToolCalls(messages)`: the two duplicate scans, the filtering
pass, and the final consistency check; a non-empty set of orphaned results
throws (here: `Except.error` carrying the offending ids). -/
def filterDuplicateToolCalls (messages : List Message) :
    Except (List String) (List Message) :=
  let dupCalls := (scanMessages .assistant toolUseId 0 [] [] messages).2
  let dupResults := (scanMessages .user toolResultId 0 [] [] messages).2
  let filteredMessages := filterMessages dupCalls dupResults 0 messages
  let validation := validateToolCallConsistency filteredMessages
  if validation.orphanedResults = [] then .ok filteredMessages
  else .error validation.orphanedResults

/-! ## One-pass reformulation of the duplicate filter (proof device)

Marking duplicate positions in a first scan and filtering them afterwards is
equivalent to a single pass that threads the set of already-seen ids and keeps
exactly the first occurrence of each id.  The bridge is proved as
`filterMessages_eq_dedupMessages` below; all further reasoning happens on the
one-pass form. -/

def dedupItems (sel : ContentItem → Option String) (seen : List String) :
    List ContentItem → List ContentItem
  | [] => []
  | item :: rest =>
    match sel item with
    | some id =>
      if id ∈ seen then dedupItems sel seen rest
      else item :: dedupItems sel (seen ++ [id]) rest
    | none => item :: dedupItems sel seen rest

/-- The seen-id set after scanning one item list. -/
def seenAfter (sel : ContentItem → Option String) (seen : List String) :
    List ContentItem → List String
  | [] => seen
  | item :: rest =>
    match sel item with
    | some id =>
      if id ∈ seen then seenAfter sel seen rest
      else seenAfter sel (seen ++ [id]) rest
    | none => seenAfter sel seen rest

/-- One-pass form of Step 3: assistant messages deduplicated on `tool_use` ids,
user messages on `tool_result` ids, with the two seen sets threaded through. -/
def dedupMessages (seenCalls seenResults : List String) : List Message → List Message
  | [] => []
  | msg :: rest =>
    match msg with
    | ⟨.assistant, .items l⟩ =>
      ⟨.assistant, .items (dedupItems toolUseId seenCalls l)⟩ ::
        dedupMessages (seenAfter toolUseId seenCalls l) seenResults rest
    | ⟨.user, .items l⟩ =>
      ⟨.user, .items (dedupItems toolResultId seenResults l)⟩ ::
        dedupMessages seenCalls (seenAfter toolResultId seenResults l) rest
    | m => m :: dedupMessages seenCalls seenResults rest

/-- The seen-id set after deduplicating a plain id list. -/
def seenAfterIds (seen : List String) : List String → List String
  | [] => seen
  | id :: rest =>
    if id ∈ seen then seenAfterIds seen rest else seenAfterIds (seen ++ [id]) rest

theorem lookup_eq_none {β : Type} (l : List (String × β)) (id : String) :
    l.lookup id = none ↔ id ∉ l.map Prod.fst := by
  induction l with
  | nil => simp [List.lookup]
  | cons p rest ih =>
    obtain ⟨k, v⟩ := p
    by_cases h : id = k
    · subst h
      simp [List.lookup]
    · have hbeq : (id == k) = false := beq_false_of_ne h
      simp [List.lookup, hbeq, h, ih]

theorem scanItems_mono (sel : ContentItem → Option String) (i : Nat) :
    ∀ (l : List ContentItem) (j : Nat) (first : List (String × Nat × Nat))
      (dups : List (Nat × Nat)) (p : Nat × Nat),
      p ∈ dups → p ∈ (scanItems sel i j first dups l).2 := by
  intro l
  induction l with
  | nil => intro j first dups p hp; simpa [scanItems] using hp
  | cons item rest ih =>
    intro j first dups p hp
    cases hsel : sel item with
    | some id =>
      cases hlk : first.lookup id with
      | some v =>
        simp only [scanItems, hsel, hlk]
        exact ih (j + 1) first (dups ++ [(i, j)]) p (List.mem_append_left _ hp)
      | none =>
        simp only [scanItems, hsel, hlk]
        exact ih (j + 1) (first ++ [(id, (i, j))]) dups p hp
    | none =>
      simp only [scanItems, hsel]
      exact ih (j + 1) first dups p hp

theorem scanItems_range (sel : ContentItem → Option String) (i : Nat) :
    ∀ (l : List ContentItem) (j : Nat) (first : List (String × Nat × Nat))
      (dups : List (Nat × Nat)) (p : Nat × Nat),
      p ∈ (scanItems sel i j first dups l).2 →
      p ∈ dups ∨ (p.1 = i ∧ j ≤ p.2) := by
  intro l
  induction l with
  | nil => intro j first dups p hp; simp [scanItems] at hp; exact Or.inl hp
  | cons item rest ih =>
    intro j first dups p hp
    cases hsel : sel item with
    | some id =>
      cases hlk : first.lookup id with
      | some v =>
        simp only [scanItems, hsel, hlk] at hp
        rcases ih (j + 1) first (dups ++ [(i, j)]) p hp with h | h
        · rcases List.mem_append.mp h with h' | h'
          · exact Or.inl h'
          · simp at h'
            subst h'
            exact Or.inr ⟨rfl, Nat.le_refl _⟩
        · exact Or.inr ⟨h.1, Nat.le_of_succ_le h.2⟩
      | none =>
        simp only [scanItems, hsel, hlk] at hp
        rcases ih (j + 1) (first ++ [(id, (i, j))]) dups p hp with h | h
        · exact Or.inl h
        · exact Or.inr ⟨h.1, Nat.le_of_succ_le h.2⟩
    | none =>
      simp only [scanItems, hsel] at hp
      rcases ih (j + 1) first dups p hp with h | h
      · exact Or.inl h
      · exact Or.inr ⟨h.1, Nat.le_of_succ_le h.2⟩

theorem scanItems_fst (sel : ContentItem → Option String) (i : Nat) :
    ∀ (l : List ContentItem) (j : Nat) (first : List (String × Nat × Nat))
      (dups : List (Nat × Nat)),
      ((scanItems sel i j first dups l).1).map Prod.fst =
        seenAfter sel (first.map Prod.fst) l := by
  intro l
  induction l with
  | nil => intro j first dups; simp [scanItems, seenAfter]
  | cons item rest ih =>
    intro j first dups
    cases hsel : sel item with
    | some id =>
      cases hlk : first.lookup id with
      | some v =>
        have hid : id ∈ first.map Prod.fst := by
          by_contra hnot
          rw [← lookup_eq_none first id] at hnot
          rw [hnot] at hlk
          exact Option.noConfusion hlk
        simp only [scanItems, hsel, hlk, seenAfter, if_pos hid]
        exact ih (j + 1) first (dups ++ [(i, j)])
      | none =>
        have hid : id ∈ first.map Prod.fst → False := by
          intro hmem
          rw [lookup_eq_none first id] at hlk
          exact hlk hmem
        simp only [scanItems, hsel, hlk, seenAfter, if_neg hid]
        have := ih (j + 1) (first ++ [(id, (i, j))]) dups
        simpa using this
    | none =>
      simp only [scanItems, hsel, seenAfter]
      exact ih (j + 1) first dups

theorem scanMessages_mono (role : Role) (sel : ContentItem → Option String) :
    ∀ (msgs : List Message) (i : Nat) (first : List (String × Nat × Nat))
      (dups : List (Nat × Nat)) (p : Nat × Nat),
      p ∈ dups → p ∈ (scanMessages role sel i first dups msgs).2 := by
  intro msgs
  induction msgs with
  | nil => intro i first dups p hp; simpa [scanMessages] using hp
  | cons msg rest ih =>
    intro i first dups p hp
    obtain ⟨r, c⟩ := msg
    cases c with
    | str s => simp only [scanMessages]; exact ih (i + 1) first dups p hp
    | items l =>
      by_cases hr : r = role
      · simp only [scanMessages, if_pos hr]
        exact ih (i + 1) _ _ p (scanItems_mono sel i l 0 first dups p hp)
      · simp only [scanMessages, if_neg hr]
        exact ih (i + 1) first dups p hp

theorem scanMessages_range (role : Role) (sel : ContentItem → Option String) :
    ∀ (msgs : List Message) (i : Nat) (first : List (String × Nat × Nat))
      (dups : List (Nat × Nat)) (p : Nat × Nat),
      p ∈ (scanMessages role sel i first dups msgs).2 →
      p ∈ dups ∨ i ≤ p.1 := by
  intro msgs
  induction msgs with
  | nil => intro i first dups p hp; simp [scanMessages] at hp; exact Or.inl hp
  | cons msg rest ih =>
    intro i first dups p hp
    obtain ⟨r, c⟩ := msg
    cases c with
    | str s =>
      simp only [scanMessages] at hp
      rcases ih (i + 1) first dups p hp with h | h
      · exact Or.inl h
      · exact Or.inr (Nat.le_of_succ_le h)
    | items l =>
      by_cases hr : r = role
      · simp only [scanMessages, if_pos hr] at hp
        rcases ih (i + 1) _ _ p hp with h | h
        · rcases scanItems_range sel i l 0 first dups p h with h' | h'
          · exact Or.inl h'
          · exact Or.inr (Nat.le_of_eq h'.1.symm)
        · exact Or.inr (Nat.le_of_succ_le h)
      · simp only [scanMessages, if_neg hr] at hp
        rcases ih (i + 1) first dups p hp with h | h
        · exact Or.inl h
        · exact Or.inr (Nat.le_of_succ_le h)

theorem filterItems_eq_dedupItems (sel : ContentItem → Option String) (i : Nat) :
    ∀ (l : List ContentItem) (j : Nat) (first : List (String × Nat × Nat))
      (dups D : List (Nat × Nat)),
      (∀ j', j ≤ j' → (((i, j') ∈ D) ↔ (i, j') ∈ (scanItems sel i j first dups l).2)) →
      (∀ p ∈ dups, ¬(p.1 = i ∧ j ≤ p.2)) →
      filterItems D i j l = dedupItems sel (first.map Prod.fst) l := by
  intro l
  induction l with
  | nil => intro j first dups D hagree hdups; simp [filterItems, dedupItems]
  | cons item rest ih =>
    intro j first dups D hagree hdups
    cases hsel : sel item with
    | some id =>
      cases hlk : first.lookup id with
      | some v =>
        have hid : id ∈ first.map Prod.fst := by
          by_contra hnot
          rw [← lookup_eq_none first id] at hnot
          rw [hnot] at hlk
          exact Option.noConfusion hlk
        have hscan : (scanItems sel i j first dups (item :: rest)).2 =
            (scanItems sel i (j + 1) first (dups ++ [(i, j)]) rest).2 := by
          simp [scanItems, hsel, hlk]
        have hj : (i, j) ∈ D := by
          rw [hagree j (Nat.le_refl j), hscan]
          exact scanItems_mono sel i rest (j + 1) first (dups ++ [(i, j)]) (i, j)
            (List.mem_append_right _ (by simp))
        simp only [filterItems, if_pos hj, dedupItems, hsel, if_pos hid]
        refine ih (j + 1) first (dups ++ [(i, j)]) D ?_ ?_
        · intro j' hj'
          rw [hagree j' (Nat.le_of_succ_le hj'), hscan]
        · intro p hp
          rcases List.mem_append.mp hp with h | h
          · intro hc
            exact hdups p h ⟨hc.1, Nat.le_of_succ_le hc.2⟩
          · simp at h
            subst h
            intro hc
            exact Nat.not_succ_le_self j (by simpa using hc.2)
      | none =>
        have hid : id ∉ first.map Prod.fst := (lookup_eq_none first id).mp hlk
        have hscan : (scanItems sel i j first dups (item :: rest)).2 =
            (scanItems sel i (j + 1) (first ++ [(id, (i, j))]) dups rest).2 := by
          simp [scanItems, hsel, hlk]
        have hj : (i, j) ∉ D := by
          rw [hagree j (Nat.le_refl j), hscan]
          intro hmem
          rcases scanItems_range sel i rest (j + 1) _ dups (i, j) hmem with h | h
          · exact hdups _ h ⟨rfl, Nat.le_refl j⟩
          · exact Nat.not_succ_le_self j h.2
        simp only [filterItems, if_neg hj, dedupItems, hsel, if_neg hid]
        refine congrArg (item :: ·) ?_
        have hrec := ih (j + 1) (first ++ [(id, (i, j))]) dups D ?_ ?_
        · rw [hrec]
          simp
        · intro j' hj'
          rw [hagree j' (Nat.le_of_succ_le hj'), hscan]
        · intro p hp hc
          exact hdups p hp ⟨hc.1, Nat.le_of_succ_le hc.2⟩
    | none =>
      have hscan : (scanItems sel i j first dups (item :: rest)).2 =
          (scanItems sel i (j + 1) first dups rest).2 := by
        simp [scanItems, hsel]
      have hj : (i, j) ∉ D := by
        rw [hagree j (Nat.le_refl j), hscan]
        intro hmem
        rcases scanItems_range sel i rest (j + 1) first dups (i, j) hmem with h | h
        · exact hdups _ h ⟨rfl, Nat.le_refl j⟩
        · exact Nat.not_succ_le_self j h.2
      simp only [filterItems, if_neg hj, dedupItems, hsel]
      refine congrArg (item :: ·) ?_
      refine ih (j + 1) first dups D ?_ ?_
      · intro j' hj'
        rw [hagree j' (Nat.le_of_succ_le hj'), hscan]
      · intro p hp hc
        exact hdups p hp ⟨hc.1, Nat.le_of_succ_le hc.2⟩

theorem filterMessages_eq_dedupMessages :
    ∀ (msgs : List Message) (i : Nat)
      (fc : List (String × Nat × Nat)) (dc : List (Nat × Nat))
      (fr : List (String × Nat × Nat)) (dr : List (Nat × Nat)),
      (∀ p ∈ dc, p.1 < i) → (∀ p ∈ dr, p.1 < i) →
      filterMessages (scanMessages .assistant toolUseId i fc dc msgs).2
        (scanMessages .user toolResultId i fr dr msgs).2 i msgs =
        dedupMessages (fc.map Prod.fst) (fr.map Prod.fst) msgs := by
  intro msgs
  induction msgs with
  | nil => intro i fc dc fr dr hc hr; simp [filterMessages, dedupMessages]
  | cons msg rest ih =>
    intro i fc dc fr dr hc hr
    obtain ⟨r, c⟩ := msg
    cases c with
    | str s =>
      have hA : (scanMessages .assistant toolUseId i fc dc (⟨r, .str s⟩ :: rest)).2 =
          (scanMessages .assistant toolUseId (i + 1) fc dc rest).2 := by
        simp [scanMessages]
      have hU : (scanMessages .user toolResultId i fr dr (⟨r, .str s⟩ :: rest)).2 =
          (scanMessages .user toolResultId (i + 1) fr dr rest).2 := by
        simp [scanMessages]
      have htail := ih (i + 1) fc dc fr dr
        (fun p hp => Nat.lt_succ_of_lt (hc p hp))
        (fun p hp => Nat.lt_succ_of_lt (hr p hp))
      cases r <;>
        simp only [filterMessages, hA, hU, dedupMessages, htail]
    | items l =>
      cases r with
      | assistant =>
        have hA : (scanMessages .assistant toolUseId i fc dc (⟨.assistant, .items l⟩ :: rest)).2 =
            (scanMessages .assistant toolUseId (i + 1)
              (scanItems toolUseId i 0 fc dc l).1 (scanItems toolUseId i 0 fc dc l).2 rest).2 := by
          simp [scanMessages]
        have hU : (scanMessages .user toolResultId i fr dr (⟨.assistant, .items l⟩ :: rest)).2 =
            (scanMessages .user toolResultId (i + 1) fr dr rest).2 := by
          simp [scanMessages]
        have hd' : ∀ p ∈ (scanItems toolUseId i 0 fc dc l).2, p.1 < i + 1 := by
          intro p hp
          rcases scanItems_range toolUseId i l 0 fc dc p hp with h | h
          · exact Nat.lt_succ_of_lt (hc p h)
          · exact h.1 ▸ Nat.lt_succ_self i
        have hhead : filterItems (scanMessages .assistant toolUseId (i + 1)
              (scanItems toolUseId i 0 fc dc l).1 (scanItems toolUseId i 0 fc dc l).2 rest).2
              i 0 l = dedupItems toolUseId (fc.map Prod.fst) l := by
          refine filterItems_eq_dedupItems toolUseId i l 0 fc dc _ ?_ ?_
          · intro j' _
            constructor
            · intro hmem
              rcases scanMessages_range .assistant toolUseId rest (i + 1) _ _ (i, j') hmem with h | h
              · exact h
              · exact absurd h (by simp)
            · intro hmem
              exact scanMessages_mono .assistant toolUseId rest (i + 1) _ _ (i, j') hmem
          · intro p hp hcon
            exact Nat.lt_irrefl i (hcon.1 ▸ hc p hp)
        have htail := ih (i + 1) (scanItems toolUseId i 0 fc dc l).1
          (scanItems toolUseId i 0 fc dc l).2 fr dr hd'
          (fun p hp => Nat.lt_succ_of_lt (hr p hp))
        rw [scanItems_fst toolUseId i l 0 fc dc] at htail
        simp only [filterMessages, hA, hU, dedupMessages, hhead, htail]
      | user =>
        have hA : (scanMessages .assistant toolUseId i fc dc (⟨.user, .items l⟩ :: rest)).2 =
            (scanMessages .assistant toolUseId (i + 1) fc dc rest).2 := by
          simp [scanMessages]
        have hU : (scanMessages .user toolResultId i fr dr (⟨.user, .items l⟩ :: rest)).2 =
            (scanMessages .user toolResultId (i + 1)
              (scanItems toolResultId i 0 fr dr l).1 (scanItems toolResultId i 0 fr dr l).2 rest).2 := by
          simp [scanMessages]
        have hd' : ∀ p ∈ (scanItems toolResultId i 0 fr dr l).2, p.1 < i + 1 := by
          intro p hp
          rcases scanItems_range toolResultId i l 0 fr dr p hp with h | h
          · exact Nat.lt_succ_of_lt (hr p h)
          · exact h.1 ▸ Nat.lt_succ_self i
        have hhead : filterItems (scanMessages .user toolResultId (i + 1)
              (scanItems toolResultId i 0 fr dr l).1 (scanItems toolResultId i 0 fr dr l).2 rest).2
              i 0 l = dedupItems toolResultId (fr.map Prod.fst) l := by
          refine filterItems_eq_dedupItems toolResultId i l 0 fr dr _ ?_ ?_
          · intro j' _
            constructor
            · intro hmem
              rcases scanMessages_range .user toolResultId rest (i + 1) _ _ (i, j') hmem with h | h
              · exact h
              · exact absurd h (by simp)
            · intro hmem
              exact scanMessages_mono .user toolResultId rest (i + 1) _ _ (i, j') hmem
          · intro p hp hcon
            exact Nat.lt_irrefl i (hcon.1 ▸ hr p hp)
        have htail := ih (i + 1) fc dc (scanItems toolResultId i 0 fr dr l).1
          (scanItems toolResultId i 0 fr dr l).2
          (fun p hp => Nat.lt_succ_of_lt (hc p hp)) hd'
        rw [scanItems_fst toolResultId i l 0 fr dr] at htail
        simp only [filterMessages, hA, hU, dedupMessages, hhead, htail]

/-- Step 3 of `filterDuplicateToolCalls` computes exactly the one-pass
first-occurrence deduplication. -/
theorem filtered_eq_dedupMessages (msgs : List Message) :
    filterMessages (scanMessages .assistant toolUseId 0 [] [] msgs).2
      (scanMessages .user toolResultId 0 [] [] msgs).2 0 msgs =
      dedupMessages [] [] msgs := by
  have := filterMessages_eq_dedupMessages msgs 0 [] [] [] []
    (by intro p hp; simp at hp) (by intro p hp; simp at hp)
  simpa using this

/-! ## Counting and membership facts about the one-pass form -/

/-- Number of occurrences of an id in a list of ids. -/
def countOcc (x : String) : List String → Nat
  | [] => 0
  | y :: rest => (if y = x then 1 else 0) + countOcc x rest

/-- `capOne n` is `n` capped at one: the number of occurrences an id keeps
after first-occurrence deduplication. -/
def capOne (n : Nat) : Nat := if n = 0 then 0 else 1

theorem countOcc_append (x : String) (a b : List String) :
    countOcc x (a ++ b) = countOcc x a + countOcc x b := by
  induction a with
  | nil => simp [countOcc]
  | cons y rest ih => simp [countOcc, ih]; omega

theorem countOcc_pos_iff (x : String) (l : List String) :
    0 < countOcc x l ↔ x ∈ l := by
  induction l with
  | nil => simp [countOcc]
  | cons y rest ih =>
    by_cases h : y = x
    · subst h; simp [countOcc]
    · simp [countOcc, h, ih, Ne.symm h]

theorem mem_seenAfterIds (x : String) :
    ∀ (ids seen : List String), x ∈ seenAfterIds seen ids ↔ x ∈ seen ∨ x ∈ ids := by
  intro ids
  induction ids with
  | nil => intro seen; simp [seenAfterIds]
  | cons id rest ih =>
    intro seen
    by_cases h : id ∈ seen
    · simp only [seenAfterIds, if_pos h, ih]
      constructor
      · rintro (hx | hx)
        · exact Or.inl hx
        · exact Or.inr (List.mem_cons_of_mem _ hx)
      · rintro (hx | hx)
        · exact Or.inl hx
        · rcases List.mem_cons.mp hx with rfl | hx
          · exact Or.inl h
          · exact Or.inr hx
    · simp only [seenAfterIds, if_neg h, ih]
      constructor
      · rintro (hx | hx)
        · rcases List.mem_append.mp hx with hx | hx
          · exact Or.inl hx
          · simp at hx
            subst hx
            exact Or.inr (List.mem_cons_self _ _)
        · exact Or.inr (List.mem_cons_of_mem _ hx)
      · rintro (hx | hx)
        · exact Or.inl (List.mem_append_left _ hx)
        · rcases List.mem_cons.mp hx with rfl | hx
          · exact Or.inl (List.mem_append_right _ (by simp))
          · exact Or.inr hx

theorem countOcc_dedupIds (x : String) :
    ∀ (l seen : List String),
      countOcc x (dedupIds seen l) = if x ∈ seen then 0 else capOne (countOcc x l) := by
  intro l
  induction l with
  | nil => intro seen; simp [dedupIds, countOcc, capOne]
  | cons id rest ih =>
    intro seen
    by_cases h : id ∈ seen
    · rw [dedupIds, if_pos h, ih]
      by_cases hx : x ∈ seen
      · simp [hx]
      · have hne : id ≠ x := fun he => hx (he ▸ h)
        simp [hx, countOcc, hne, capOne]
    · rw [dedupIds, if_neg h]
      by_cases hx : x = id
      · subst hx
        have hxs : x ∉ seen := h
        rw [countOcc, if_pos rfl, ih]
        simp [hxs, List.mem_append, countOcc, capOne]
      · rw [countOcc, if_neg (Ne.symm hx), ih]
        have hmem : (x ∈ seen ++ [id]) ↔ x ∈ seen := by
          simp [List.mem_append, hx]
        rw [Nat.zero_add]
        by_cases hxs : x ∈ seen
        · simp [hxs, hmem]
        · simp [hxs, hmem, countOcc, Ne.symm hx, capOne]

theorem mem_dedupIds (x : String) (l seen : List String) :
    x ∈ dedupIds seen l ↔ x ∉ seen ∧ x ∈ l := by
  rw [← countOcc_pos_iff, countOcc_dedupIds]
  by_cases hx : x ∈ seen
  · simp [hx]
  · rw [if_neg hx, capOne, ← countOcc_pos_iff x l]
    by_cases h0 : countOcc x l = 0
    · simp [h0, hx]
    · simp only [if_neg h0]
      constructor
      · intro _
        exact ⟨hx, by omega⟩
      · intro _
        omega

theorem dedupIds_append (seen : List String) :
    ∀ (a b : List String),
      dedupIds seen (a ++ b) = dedupIds seen a ++ dedupIds (seenAfterIds seen a) b := by
  intro a
  induction a generalizing seen with
  | nil => intro b; simp [dedupIds, seenAfterIds]
  | cons id rest ih =>
    intro b
    by_cases h : id ∈ seen
    · simp only [List.cons_append, dedupIds, if_pos h, seenAfterIds]
      exact ih seen b
    · simp only [List.cons_append, dedupIds, if_neg h, seenAfterIds, List.cons_append]
      exact congrArg (id :: ·) (ih (seen ++ [id]) b)

theorem filterMap_dedupItems (sel : ContentItem → Option String) :
    ∀ (l : List ContentItem) (seen : List String),
      (dedupItems sel seen l).filterMap sel = dedupIds seen (l.filterMap sel) := by
  intro l
  induction l with
  | nil => intro seen; simp [dedupItems, dedupIds]
  | cons item rest ih =>
    intro seen
    cases hsel : sel item with
    | some id =>
      by_cases h : id ∈ seen
      · simp [dedupItems, hsel, h, dedupIds, List.filterMap_cons, ih]
      · simp [dedupItems, hsel, h, dedupIds, List.filterMap_cons, ih]
    | none =>
      simp [dedupItems, hsel, List.filterMap_cons, ih]

theorem seenAfter_filterMap (sel : ContentItem → Option String) :
    ∀ (l : List ContentItem) (seen : List String),
      seenAfter sel seen l = seenAfterIds seen (l.filterMap sel) := by
  intro l
  induction l with
  | nil => intro seen; simp [seenAfter, seenAfterIds]
  | cons item rest ih =>
    intro seen
    cases hsel : sel item with
    | some id =>
      by_cases h : id ∈ seen
      · simp [seenAfter, hsel, h, seenAfterIds, List.filterMap_cons, ih]
      · simp [seenAfter, hsel, h, seenAfterIds, List.filterMap_cons, ih]
    | none =>
      simp [seenAfter, hsel, List.filterMap_cons, ih]

theorem collect_dedupMessages_assistant :
    ∀ (msgs : List Message) (sc sr : List String),
      collectIds .assistant toolUseId (dedupMessages sc sr msgs) =
        dedupIds sc (collectIds .assistant toolUseId msgs) := by
  intro msgs
  induction msgs with
  | nil => intro sc sr; simp [dedupMessages, collectIds, dedupIds]
  | cons msg rest ih =>
    intro sc sr
    obtain ⟨r, c⟩ := msg
    cases c with
    | str s =>
      cases r <;> simp only [dedupMessages, collectIds, ih, List.nil_append]
    | items l =>
      cases r with
      | assistant =>
        simp only [dedupMessages, collectIds, if_pos rfl, ih,
          filterMap_dedupItems, seenAfter_filterMap, dedupIds_append]
        simp
      | user =>
        have hne : Role.user ≠ Role.assistant := by decide
        simp only [dedupMessages, collectIds, if_neg hne, ih, List.nil_append]

theorem collect_dedupMessages_user :
    ∀ (msgs : List Message) (sc sr : List String),
      collectIds .user toolResultId (dedupMessages sc sr msgs) =
        dedupIds sr (collectIds .user toolResultId msgs) := by
  intro msgs
  induction msgs with
  | nil => intro sc sr; simp [dedupMessages, collectIds, dedupIds]
  | cons msg rest ih =>
    intro sc sr
    obtain ⟨r, c⟩ := msg
    cases c with
    | str s =>
      cases r <;> simp only [dedupMessages, collectIds, ih, List.nil_append]
    | items l =>
      cases r with
      | user =>
        simp only [dedupMessages, collectIds, if_pos rfl, ih,
          filterMap_dedupItems, seenAfter_filterMap, dedupIds_append]
        simp
      | assistant =>
        have hne : Role.assistant ≠ Role.user := by decide
        simp only [dedupMessages, collectIds, if_neg hne, ih, List.nil_append]

theorem mem_collect_dedup_assistant (msgs : List Message) (x : String) :
    x ∈ collectIds .assistant toolUseId (dedupMessages [] [] msgs) ↔
      x ∈ collectIds .assistant toolUseId msgs := by
  rw [collect_dedupMessages_assistant, mem_dedupIds]
  simp

theorem mem_collect_dedup_user (msgs : List Message) (x : String) :
    x ∈ collectIds .user toolResultId (dedupMessages [] [] msgs) ↔
      x ∈ collectIds .user toolResultId msgs := by
  rw [collect_dedupMessages_user, mem_dedupIds]
  simp

theorem mem_validate_orphans (messages : List Message) (r : String) :
    r ∈ (validateToolCallConsistency messages).orphanedResults ↔
      (r ∈ collectIds .user toolResultId messages ∧
        r ∉ collectIds .assistant toolUseId messages) := by
  unfold validateToolCallConsistency
  simp only [List.mem_filter, decide_eq_true_eq, mem_dedupIds]
  constructor
  · rintro ⟨⟨-, hr⟩, hnc⟩
    exact ⟨hr, fun hc => hnc ⟨by simp, hc⟩⟩
  · rintro ⟨hr, hnc⟩
    exact ⟨⟨by simp, hr⟩, fun hc => hnc hc.2⟩

theorem validate_orphans_nil (messages : List Message) :
    (validateToolCallConsistency messages).orphanedResults = [] ↔
      ∀ r ∈ collectIds .user toolResultId messages,
        r ∈ collectIds .assistant toolUseId messages := by
  rw [List.eq_nil_iff_forall_not_mem]
  constructor
  · intro h r hr
    by_contra hnc
    exact h r ((mem_validate_orphans messages r).mpr ⟨hr, hnc⟩)
  · intro h r hr
    rw [mem_validate_orphans] at hr
    exact hr.2 (h r hr.1)

/-- Characterization of a successful run of the normalizer: it succeeds exactly
when every tool-result id occurring in a user message also occurs as a tool-use
id in some assistant message, and in that case the output is the one-pass
first-occurrence deduplication of the input. -/
theorem filterDuplicateToolCalls_ok_iff (msgs : List Message) (out : List Message) :
    filterDuplicateToolCalls msgs = .ok out ↔
      ((∀ r ∈ collectIds .user toolResultId msgs,
          r ∈ collectIds .assistant toolUseId msgs) ∧
        out = dedupMessages [] [] msgs) := by
  simp only [filterDuplicateToolCalls]
  rw [filtered_eq_dedupMessages]
  have hcond : (validateToolCallConsistency (dedupMessages [] [] msgs)).orphanedResults = [] ↔
      ∀ r ∈ collectIds .user toolResultId msgs,
        r ∈ collectIds .assistant toolUseId msgs := by
    rw [validate_orphans_nil]
    constructor
    · intro h r hr
      rw [← mem_collect_dedup_assistant]
      exact h r ((mem_collect_dedup_user msgs r).mpr hr)
    · intro h r hr
      rw [mem_collect_dedup_assistant]
      exact h r ((mem_collect_dedup_user msgs r).mp hr)
  by_cases hc : (validateToolCallConsistency (dedupMessages [] [] msgs)).orphanedResults = []
  · simp only [if_pos hc]
    constructor
    · intro h
      exact ⟨hcond.mp hc, (Except.ok.injEq _ _).mp h.symm⟩
    · rintro ⟨-, rfl⟩
      rfl
  · simp only [if_neg hc]
    constructor
    · intro h
      exact absurd h (by simp)
    · rintro ⟨h, -⟩
      exact absurd (hcond.mpr h) hc

/-- A tool-result id in a user message with no matching tool-use id in any
assistant message makes the normalizer fail, and the error names that id. -/
theorem filterDuplicateToolCalls_error_of_orphan (msgs : List Message) (r : String)
    (hr : r ∈ collectIds .user toolResultId msgs)
    (hnc : r ∉ collectIds .assistant toolUseId msgs) :
    ∃ es, filterDuplicateToolCalls msgs = .error es ∧ r ∈ es := by
  simp only [filterDuplicateToolCalls]
  rw [filtered_eq_dedupMessages]
  have hmorph : r ∈ (validateToolCallConsistency (dedupMessages [] [] msgs)).orphanedResults := by
    rw [mem_validate_orphans, mem_collect_dedup_user, mem_collect_dedup_assistant]
    exact ⟨hr, hnc⟩
  have hne : (validateToolCallConsistency (dedupMessages [] [] msgs)).orphanedResults ≠ [] := by
    intro h
    rw [h] at hmorph
    exact List.not_mem_nil r hmorph
  refine ⟨(validateToolCallConsistency (dedupMessages [] [] msgs)).orphanedResults, ?_, hmorph⟩
  simp [if_neg hne]

/-! ## Identity of the filter on already-deduplicated conversations -/

theorem dedupItems_id (sel : ContentItem → Option String) :
    ∀ (l : List ContentItem) (seen : List String),
      (∀ x ∈ seen, countOcc x (l.filterMap sel) = 0) →
      (∀ x, countOcc x (l.filterMap sel) ≤ 1) →
      dedupItems sel seen l = l := by
  intro l
  induction l with
  | nil => intro seen h0 h1; simp [dedupItems]
  | cons item rest ih =>
    intro seen h0 h1
    cases hsel : sel item with
    | some id =>
      have hfm : (item :: rest).filterMap sel = id :: rest.filterMap sel := by
        simp [List.filterMap_cons, hsel]
      have hid : id ∉ seen := by
        intro hmem
        have := h0 id hmem
        rw [hfm] at this
        simp [countOcc] at this
      have hrest0 : countOcc id (rest.filterMap sel) = 0 := by
        have := h1 id
        rw [hfm] at this
        simp [countOcc] at this
        omega
      simp only [dedupItems, hsel, if_neg hid]
      refine congrArg (item :: ·) (ih (seen ++ [id]) ?_ ?_)
      · intro x hx
        rcases List.mem_append.mp hx with hx | hx
        · have := h0 x hx
          rw [hfm] at this
          simp [countOcc] at this
          exact this.2
        · simp at hx
          subst hx
          exact hrest0
      · intro x
        have := h1 x
        rw [hfm] at this
        simp [countOcc] at this
        omega
    | none =>
      have hfm : (item :: rest).filterMap sel = rest.filterMap sel := by
        simp [List.filterMap_cons, hsel]
      simp only [dedupItems, hsel]
      refine congrArg (item :: ·) (ih seen ?_ ?_)
      · intro x hx
        have := h0 x hx
        rwa [hfm] at this
      · intro x
        have := h1 x
        rwa [hfm] at this

theorem dedupMessages_id :
    ∀ (msgs : List Message) (sc sr : List String),
      (∀ x ∈ sc, countOcc x (collectIds .assistant toolUseId msgs) = 0) →
      (∀ x, countOcc x (collectIds .assistant toolUseId msgs) ≤ 1) →
      (∀ x ∈ sr, countOcc x (collectIds .user toolResultId msgs) = 0) →
      (∀ x, countOcc x (collectIds .user toolResultId msgs) ≤ 1) →
      dedupMessages sc sr msgs = msgs := by
  intro msgs
  induction msgs with
  | nil => intro sc sr _ _ _ _; simp [dedupMessages]
  | cons msg rest ih =>
    intro sc sr hc0 hc1 hr0 hr1
    obtain ⟨r, c⟩ := msg
    cases c with
    | str s =>
      have hca : collectIds .assistant toolUseId (⟨r, .str s⟩ :: rest) =
          collectIds .assistant toolUseId rest := by
        simp [collectIds]
      have hcu : collectIds .user toolResultId (⟨r, .str s⟩ :: rest) =
          collectIds .user toolResultId rest := by
        simp [collectIds]
      rw [hca] at hc0 hc1
      rw [hcu] at hr0 hr1
      cases r <;>
        simp only [dedupMessages] <;>
        exact congrArg _ (ih sc sr hc0 hc1 hr0 hr1)
    | items l =>
      cases r with
      | assistant =>
        have hca : collectIds .assistant toolUseId (⟨.assistant, .items l⟩ :: rest) =
            l.filterMap toolUseId ++ collectIds .assistant toolUseId rest := by
          simp [collectIds]
        have hcu : collectIds .user toolResultId (⟨.assistant, .items l⟩ :: rest) =
            collectIds .user toolResultId rest := by
          simp [collectIds]
        rw [hcu] at hr0 hr1
        have hhead : dedupItems toolUseId sc l = l := by
          refine dedupItems_id toolUseId l sc ?_ ?_
          · intro x hx
            have := hc0 x hx
            rw [hca, countOcc_append] at this
            omega
          · intro x
            have := hc1 x
            rw [hca, countOcc_append] at this
            omega
        have htail : dedupMessages (seenAfter toolUseId sc l) sr rest = rest := by
          refine ih (seenAfter toolUseId sc l) sr ?_ ?_ hr0 hr1
          · intro x hx
            rw [seenAfter_filterMap] at hx
            rcases (mem_seenAfterIds x _ sc).mp hx with hx | hx
            · have := hc0 x hx
              rw [hca, countOcc_append] at this
              omega
            · have hpos : 0 < countOcc x (l.filterMap toolUseId) :=
                (countOcc_pos_iff x _).mpr hx
              have := hc1 x
              rw [hca, countOcc_append] at this
              omega
          · intro x
            have := hc1 x
            rw [hca, countOcc_append] at this
            omega
        simp only [dedupMessages, hhead, htail]
      | user =>
        have hca : collectIds .assistant toolUseId (⟨.user, .items l⟩ :: rest) =
            collectIds .assistant toolUseId rest := by
          simp [collectIds]
        have hcu : collectIds .user toolResultId (⟨.user, .items l⟩ :: rest) =
            l.filterMap toolResultId ++ collectIds .user toolResultId rest := by
          simp [collectIds]
        rw [hca] at hc0 hc1
        have hhead : dedupItems toolResultId sr l = l := by
          refine dedupItems_id toolResultId l sr ?_ ?_
          · intro x hx
            have := hr0 x hx
            rw [hcu, countOcc_append] at this
            omega
          · intro x
            have := hr1 x
            rw [hcu, countOcc_append] at this
            omega
        have htail : dedupMessages sc (seenAfter toolResultId sr l) rest = rest := by
          refine ih sc (seenAfter toolResultId sr l) hc0 hc1 ?_ ?_
          · intro x hx
            rw [seenAfter_filterMap] at hx
            rcases (mem_seenAfterIds x _ sr).mp hx with hx | hx
            · have := hr0 x hx
              rw [hcu, countOcc_append] at this
              omega
            · have hpos : 0 < countOcc x (l.filterMap toolResultId) :=
                (countOcc_pos_iff x _).mpr hx
              have := hr1 x
              rw [hcu, countOcc_append] at this
              omega
          · intro x
            have := hr1 x
            rw [hcu, countOcc_append] at this
            omega
        simp only [dedupMessages, hhead, htail]

/-! ## Order preservation and first occurrences -/

/-- A message shrank without reordering: same role, and an array body became a
subsequence of the original (string bodies are unchanged). -/
def messageShrink (m' m : Message) : Prop :=
  m'.role = m.role ∧
    match m'.content, m.content with
    | .items l', .items l => List.Sublist l' l
    | c', c => c' = c

theorem dedupItems_sublist (sel : ContentItem → Option String) :
    ∀ (l : List ContentItem) (seen : List String),
      List.Sublist (dedupItems sel seen l) l := by
  intro l
  induction l with
  | nil => intro seen; simp [dedupItems]
  | cons item rest ih =>
    intro seen
    cases hsel : sel item with
    | some id =>
      by_cases h : id ∈ seen
      · simp only [dedupItems, hsel, if_pos h]
        exact List.Sublist.cons item (ih seen)
      · simp only [dedupItems, hsel, if_neg h]
        exact List.Sublist.cons₂ item (ih (seen ++ [id]))
    | none =>
      simp only [dedupItems, hsel]
      exact List.Sublist.cons₂ item (ih seen)

theorem dedupMessages_shrink :
    ∀ (msgs : List Message) (sc sr : List String),
      List.Forall₂ messageShrink (dedupMessages sc sr msgs) msgs := by
  intro msgs
  induction msgs with
  | nil => intro sc sr; simp [dedupMessages]
  | cons msg rest ih =>
    intro sc sr
    obtain ⟨r, c⟩ := msg
    cases c with
    | str s =>
      cases r <;>
        exact List.Forall₂.cons ⟨rfl, rfl⟩ (ih _ _)
    | items l =>
      cases r with
      | assistant =>
        exact List.Forall₂.cons ⟨rfl, dedupItems_sublist toolUseId l sc⟩ (ih _ _)
      | user =>
        exact List.Forall₂.cons ⟨rfl, dedupItems_sublist toolResultId l sr⟩ (ih _ _)

/-- First item of the selected kind with the given id inside one item list. -/
def findInItems (sel : ContentItem → Option String) (x : String) :
    List ContentItem → Option ContentItem
  | [] => none
  | item :: rest => if sel item = some x then some item else findInItems sel x rest

/-- First item of the selected kind with the given id among the array messages
of the given role, in conversation order. -/
def findInMessages (role : Role) (sel : ContentItem → Option String) (x : String) :
    List Message → Option ContentItem
  | [] => none
  | msg :: rest =>
    match msg with
    | ⟨r, .items l⟩ =>
      if r = role then
        match findInItems sel x l with
        | some item => some item
        | none => findInMessages role sel x rest
      else findInMessages role sel x rest
    | _ => findInMessages role sel x rest

theorem findInItems_eq_none (sel : ContentItem → Option String) (x : String) :
    ∀ (l : List ContentItem), findInItems sel x l = none ↔ x ∉ l.filterMap sel := by
  intro l
  induction l with
  | nil => simp [findInItems]
  | cons item rest ih =>
    cases hsel : sel item with
    | some id =>
      by_cases h : id = x
      · subst h
        simp [findInItems, hsel, List.filterMap_cons]
      · have hne : sel item ≠ some x := by simp [hsel, h]
        rw [findInItems, if_neg hne, ih]
        have hfm : (item :: rest).filterMap sel = id :: rest.filterMap sel := by
          simp [List.filterMap_cons, hsel]
        rw [hfm]
        constructor
        · intro hx hmem
          rcases List.mem_cons.mp hmem with he | hmem'
          · exact h he.symm
          · exact hx hmem'
        · intro hx hmem
          exact hx (List.mem_cons_of_mem _ hmem)
    | none =>
      have hne : sel item ≠ some x := by simp [hsel]
      rw [findInItems, if_neg hne, ih]
      have hfm : (item :: rest).filterMap sel = rest.filterMap sel := by
        simp [List.filterMap_cons, hsel]
      rw [hfm]

theorem findInItems_dedup (sel : ContentItem → Option String) :
    ∀ (l : List ContentItem) (seen : List String) (x : String),
      findInItems sel x (dedupItems sel seen l) =
        if x ∈ seen then none else findInItems sel x l := by
  intro l
  induction l with
  | nil => intro seen x; simp [dedupItems, findInItems]
  | cons item rest ih =>
    intro seen x
    cases hsel : sel item with
    | some id =>
      by_cases h : id ∈ seen
      · rw [dedupItems]
        simp only [hsel, if_pos h]
        rw [ih seen x]
        by_cases hx : x ∈ seen
        · simp [hx]
        · have hne : id ≠ x := fun he => hx (he ▸ h)
          have : (some id = some x) = False := by simp [hne]
          simp [hx, findInItems, hsel, hne]
      · rw [dedupItems]
        simp only [hsel, if_neg h]
        by_cases hx : x = id
        · subst hx
          simp [findInItems, hsel, h]
        · have hne : sel item ≠ some x := by
            rw [hsel]
            intro he
            exact hx (Option.some.injEq _ _ ▸ (by simpa using he.symm))
          rw [findInItems, if_neg hne, ih (seen ++ [id]) x, findInItems, if_neg hne]
          by_cases hxs : x ∈ seen
          · have hin : x ∈ seen ++ [id] := List.mem_append_left _ hxs
            simp [hin, hxs]
          · have hout : x ∉ seen ++ [id] := by
              simp [List.mem_append, hxs, hx]
            simp [hout, hxs]
    | none =>
      have hne : sel item ≠ some x := by simp [hsel]
      rw [dedupItems]
      simp only [hsel]
      rw [findInItems, if_neg hne, ih seen x, findInItems, if_neg hne]

theorem findInMessages_dedup_assistant :
    ∀ (msgs : List Message) (sc sr : List String) (x : String),
      findInMessages .assistant toolUseId x (dedupMessages sc sr msgs) =
        if x ∈ sc then none else findInMessages .assistant toolUseId x msgs := by
  intro msgs
  induction msgs with
  | nil => intro sc sr x; simp [dedupMessages, findInMessages]
  | cons msg rest ih =>
    intro sc sr x
    obtain ⟨r, c⟩ := msg
    cases c with
    | str s =>
      cases r <;>
        simp only [dedupMessages, findInMessages] <;>
        exact ih _ _ x
    | items l =>
      cases r with
      | user =>
        simp only [dedupMessages, findInMessages]
        have hne : (Role.user = Role.assistant) = False := by simp
        simp only [hne, if_false]
        exact ih _ _ x
      | assistant =>
        simp only [dedupMessages, findInMessages, if_pos rfl]
        rw [findInItems_dedup]
        by_cases hx : x ∈ sc
        · simp only [if_pos hx]
          rw [ih _ _ x]
          have hx' : x ∈ seenAfter toolUseId sc l := by
            rw [seenAfter_filterMap]
            exact (mem_seenAfterIds x _ sc).mpr (Or.inl hx)
          simp [hx']
        · simp only [if_neg hx]
          cases hfind : findInItems toolUseId x l with
          | some item => simp
          | none =>
            simp only
            rw [ih _ _ x]
            have hx' : x ∉ seenAfter toolUseId sc l := by
              rw [seenAfter_filterMap]
              intro hmem
              rcases (mem_seenAfterIds x _ sc).mp hmem with h | h
              · exact hx h
              · exact ((findInItems_eq_none toolUseId x l).mp hfind) h
            simp [hx']

/-- Occurrences of an id within the section of a conversation contributed by
one member message are bounded by the occurrences in the whole conversation. -/
theorem countOcc_filterMap_le_collect (role : Role) (sel : ContentItem → Option String)
    (x : String) :
    ∀ (msgs : List Message) (l : List ContentItem),
      Message.mk role (.items l) ∈ msgs →
      countOcc x (l.filterMap sel) ≤ countOcc x (collectIds role sel msgs) := by
  intro msgs
  induction msgs with
  | nil => intro l h; exact absurd h (List.not_mem_nil _)
  | cons msg rest ih =>
    intro l h
    rcases List.mem_cons.mp h with h | h
    · subst h
      have : collectIds role sel (⟨role, .items l⟩ :: rest) =
          l.filterMap sel ++ collectIds role sel rest := by
        simp [collectIds]
      rw [this, countOcc_append]
      omega
    · have hle := ih l h
      obtain ⟨r, c⟩ := msg
      cases c with
      | str s =>
        have hcoll : collectIds role sel (⟨r, .str s⟩ :: rest) =
            collectIds role sel rest := by
          simp [collectIds]
        rw [hcoll]
        exact hle
      | items l' =>
        by_cases hr : r = role
        · subst hr
          have hcoll : collectIds r sel (⟨r, .items l'⟩ :: rest) =
              l'.filterMap sel ++ collectIds r sel rest := by
            simp [collectIds]
          rw [hcoll, countOcc_append]
          omega
        · have hcoll : collectIds role sel (⟨r, .items l'⟩ :: rest) =
              collectIds role sel rest := by
            simp [collectIds, hr]
          rw [hcoll]
          exact hle

theorem capOne_le_one (n : Nat) : capOne n ≤ 1 := by
  unfold capOne
  split <;> omega

theorem capOne_of_pos (n : Nat) (h : 0 < n) : capOne n = 1 := by
  unfold capOne
  split <;> omega

/-- Total number of `tool_use` items carrying a given id anywhere in the
conversation, regardless of the role of the containing message. -/
def countToolUseAnyRole (x : String) : List Message → Nat
  | [] => 0
  | ⟨_, .items l⟩ :: rest => countOcc x (l.filterMap toolUseId) + countToolUseAnyRole x rest
  | _ :: rest => countToolUseAnyRole x rest

/-- Total number of `tool_result` items referencing a given id anywhere in the
conversation, regardless of the role of the containing message. -/
def countToolResultAnyRole (x : String) : List Message → Nat
  | [] => 0
  | ⟨_, .items l⟩ :: rest => countOcc x (l.filterMap toolResultId) + countToolResultAnyRole x rest
  | _ :: rest => countToolResultAnyRole x rest

/-- C1 (counterexample).  The claim quantifies over `tool_result` items anywhere
in the conversation, but the normalizer only scans user messages for results:
a conversation whose only content item is a `tool_result` with id `"x"` sitting
in an *assistant* message — so `"x"` has no `tool_use` anywhere — is returned
successfully instead of failing. -/
theorem assistantOrphanResultPasses :
    filterDuplicateToolCalls [⟨.assistant, .items [.toolResult "x" "out"]⟩] =
      .ok [⟨.assistant, .items [.toolResult "x" "out"]⟩] ∧
    countToolResultAnyRole "x" [Message.mk .assistant (.items [.toolResult "x" "out"])] = 1 ∧
    countToolUseAnyRole "x" [Message.mk .assistant (.items [.toolResult "x" "out"])] = 0 := by
  refine ⟨rfl, rfl, rfl⟩

/-- C1 (amended).  For every conversation containing a `tool_result` item in a
*user* message whose referenced id has no `tool_use` item in any *assistant*
message, `filterDuplicateToolCalls` fails with a structural-defect error whose
payload contains the offending id; it never returns such a conversation. -/
theorem userOrphanResultFails (msgs : List Message) (r : String)
    (hr : r ∈ collectIds .user toolResultId msgs)
    (hnc : r ∉ collectIds .assistant toolUseId msgs) :
    ∃ es, filterDuplicateToolCalls msgs = .error es ∧ r ∈ es :=
  filterDuplicateToolCalls_error_of_orphan msgs r hr hnc

theorem userOrphanResultFails_witness :
    ("x" ∈ collectIds .user toolResultId [Message.mk .user (.items [.toolResult "x" "lost"])]) ∧
    ("x" ∉ collectIds .assistant toolUseId [Message.mk .user (.items [.toolResult "x" "lost"])]) ∧
    ∃ es, filterDuplicateToolCalls [Message.mk .user (.items [.toolResult "x" "lost"])] =
        .error es ∧ "x" ∈ es :=
  ⟨by decide, by decide,
    userOrphanResultFails [Message.mk .user (.items [.toolResult "x" "lost"])] "x"
      (by decide) (by decide)⟩

/-- C2 (counterexample).  The claim asserts uniqueness of `tool_use` ids in the
accepted output "regardless of the role of the message in which it appears",
but the duplicate scan only looks at assistant messages: a user message holding
the same `tool_use` id twice is accepted unchanged, so the returned
conversation carries two `tool_use` items with id `"x"`. -/
theorem userDuplicateToolUseSurvives :
    filterDuplicateToolCalls
        [⟨.user, .items [.toolUse "x" "f" "{}", .toolUse "x" "f" "{}"]⟩] =
      .ok [⟨.user, .items [.toolUse "x" "f" "{}", .toolUse "x" "f" "{}"]⟩] ∧
    countToolUseAnyRole "x"
        [Message.mk .user (.items [.toolUse "x" "f" "{}", .toolUse "x" "f" "{}"])] = 2 := by
  refine ⟨rfl, rfl⟩

/-- C2 (amended).  In every conversation accepted by `filterDuplicateToolCalls`
each `tool_use` id occurs at most once among the *assistant* messages of the
output (ids inside user messages are not deduplicated). -/
theorem okOutputAssistantToolUseUnique (msgs out : List Message) (x : String)
    (h : filterDuplicateToolCalls msgs = .ok out) :
    countOcc x (collectIds .assistant toolUseId out) ≤ 1 := by
  rw [filterDuplicateToolCalls_ok_iff] at h
  obtain ⟨-, rfl⟩ := h
  rw [collect_dedupMessages_assistant, countOcc_dedupIds]
  simp only [List.not_mem_nil, if_false]
  exact capOne_le_one _

theorem okOutputAssistantToolUseUnique_witness :
    (filterDuplicateToolCalls
        [⟨.assistant, .items [.toolUse "x" "f" "1", .toolUse "x" "f" "1"]⟩,
         ⟨.user, .items [.toolResult "x" "r"]⟩] =
      .ok [⟨.assistant, .items [.toolUse "x" "f" "1"]⟩,
           ⟨.user, .items [.toolResult "x" "r"]⟩]) ∧
    countOcc "x" (collectIds .assistant toolUseId
      [Message.mk .assistant (.items [.toolUse "x" "f" "1"]),
       Message.mk .user (.items [.toolResult "x" "r"])]) ≤ 1 :=
  ⟨rfl,
    okOutputAssistantToolUseUnique
      [⟨.assistant, .items [.toolUse "x" "f" "1", .toolUse "x" "f" "1"]⟩,
       ⟨.user, .items [.toolResult "x" "r"]⟩]
      [⟨.assistant, .items [.toolUse "x" "f" "1"]⟩,
       ⟨.user, .items [.toolResult "x" "r"]⟩] "x" rfl⟩

/-- C3.  Normalization is idempotent: whenever `filterDuplicateToolCalls`
succeeds with output `out`, running it again on `out` succeeds and returns
`out` itself, with no further removals. -/
theorem filterDuplicateToolCalls_idempotent (msgs out : List Message)
    (h : filterDuplicateToolCalls msgs = .ok out) :
    filterDuplicateToolCalls out = .ok out := by
  rw [filterDuplicateToolCalls_ok_iff] at h
  obtain ⟨hcond, rfl⟩ := h
  rw [filterDuplicateToolCalls_ok_iff]
  constructor
  · intro r hr
    rw [mem_collect_dedup_user] at hr
    rw [mem_collect_dedup_assistant]
    exact hcond r hr
  · refine (dedupMessages_id (dedupMessages [] [] msgs) [] []
      (by intro x hx; exact absurd hx (List.not_mem_nil x)) ?_
      (by intro x hx; exact absurd hx (List.not_mem_nil x)) ?_).symm
    · intro x
      rw [collect_dedupMessages_assistant, countOcc_dedupIds]
      simp only [List.not_mem_nil, if_false]
      exact capOne_le_one _
    · intro x
      rw [collect_dedupMessages_user, countOcc_dedupIds]
      simp only [List.not_mem_nil, if_false]
      exact capOne_le_one _

theorem filterDuplicateToolCalls_idempotent_witness :
    (filterDuplicateToolCalls
        [⟨.assistant, .items [.toolUse "x" "f" "1", .toolUse "x" "f" "1"]⟩,
         ⟨.user, .items [.toolResult "x" "r", .toolResult "x" "r2"]⟩] =
      .ok [⟨.assistant, .items [.toolUse "x" "f" "1"]⟩,
           ⟨.user, .items [.toolResult "x" "r"]⟩]) ∧
    filterDuplicateToolCalls
        [⟨.assistant, .items [.toolUse "x" "f" "1"]⟩,
         ⟨.user, .items [.toolResult "x" "r"]⟩] =
      .ok [⟨.assistant, .items [.toolUse "x" "f" "1"]⟩,
           ⟨.user, .items [.toolResult "x" "r"]⟩] :=
  ⟨rfl,
    filterDuplicateToolCalls_idempotent
      [⟨.assistant, .items [.toolUse "x" "f" "1", .toolUse "x" "f" "1"]⟩,
       ⟨.user, .items [.toolResult "x" "r", .toolResult "x" "r2"]⟩]
      [⟨.assistant, .items [.toolUse "x" "f" "1"]⟩,
       ⟨.user, .items [.toolResult "x" "r"]⟩] rfl⟩

/-- C4 (counterexample).  The claimed scenario says the accepted output has
exactly one `tool_use "x"`, but when the input additionally holds a
`tool_use "x"` inside a user message — which still satisfies the claim's
premise — the accepted output keeps two `tool_use` items with id `"x"`. -/
theorem duplicateCallScenarioExtraUserToolUse :
    filterDuplicateToolCalls
        [⟨.assistant, .items [.toolUse "x" "f" "1", .toolUse "x" "f" "1"]⟩,
         ⟨.user, .items [.toolResult "x" "r", .toolUse "x" "g" "2"]⟩] =
      .ok [⟨.assistant, .items [.toolUse "x" "f" "1"]⟩,
           ⟨.user, .items [.toolResult "x" "r", .toolUse "x" "g" "2"]⟩] ∧
    countToolUseAnyRole "x"
        [Message.mk .assistant (.items [.toolUse "x" "f" "1"]),
         Message.mk .user (.items [.toolResult "x" "r", .toolUse "x" "g" "2"])] = 2 := by
  refine ⟨rfl, rfl⟩

/-- C4 (amended).  If a `tool_use` with id `x` occurs (at least) twice inside
one assistant message, exactly one `tool_result` for `x` occurs among the user
messages, and no user-message `tool_result` id lacks a matching
assistant-message `tool_use` (otherwise normalization fails), then
`filterDuplicateToolCalls` succeeds, its output carries exactly one
`tool_use x` among assistant messages — the input's first occurrence — and
exactly one `tool_result x` among user messages, and every message shrinks to
a subsequence of its original content (no reordering). -/
theorem duplicateCallSingleResultScenario (msgs : List Message) (x : String)
    (l : List ContentItem)
    (hmem : Message.mk .assistant (.items l) ∈ msgs)
    (htwice : 2 ≤ countOcc x (l.filterMap toolUseId))
    (hres : countOcc x (collectIds .user toolResultId msgs) = 1)
    (hno : ∀ s ∈ collectIds .user toolResultId msgs,
      s ∈ collectIds .assistant toolUseId msgs) :
    ∃ out, filterDuplicateToolCalls msgs = .ok out ∧
      countOcc x (collectIds .assistant toolUseId out) = 1 ∧
      countOcc x (collectIds .user toolResultId out) = 1 ∧
      List.Forall₂ messageShrink out msgs ∧
      findInMessages .assistant toolUseId x out =
        findInMessages .assistant toolUseId x msgs := by
  refine ⟨dedupMessages [] [] msgs, ?_, ?_, ?_, ?_, ?_⟩
  · rw [filterDuplicateToolCalls_ok_iff]
    exact ⟨hno, rfl⟩
  · rw [collect_dedupMessages_assistant, countOcc_dedupIds]
    simp only [List.not_mem_nil, if_false]
    have hle := countOcc_filterMap_le_collect .assistant toolUseId x msgs l hmem
    exact capOne_of_pos _ (by omega)
  · rw [collect_dedupMessages_user, countOcc_dedupIds]
    simp only [List.not_mem_nil, if_false]
    rw [hres]
    rfl
  · exact dedupMessages_shrink msgs [] []
  · rw [findInMessages_dedup_assistant]
    simp

theorem duplicateCallSingleResultScenario_witness :
    (Message.mk .assistant (.items [.toolUse "x" "f" "1", .toolUse "x" "f" "1"]) ∈
      [Message.mk .assistant (.items [.toolUse "x" "f" "1", .toolUse "x" "f" "1"]),
       Message.mk .user (.items [.toolResult "x" "r"])]) ∧
    (2 ≤ countOcc "x" (([ContentItem.toolUse "x" "f" "1",
        ContentItem.toolUse "x" "f" "1"]).filterMap toolUseId)) ∧
    (countOcc "x" (collectIds .user toolResultId
      [Message.mk .assistant (.items [.toolUse "x" "f" "1", .toolUse "x" "f" "1"]),
       Message.mk .user (.items [.toolResult "x" "r"])]) = 1) ∧
    ∃ out, filterDuplicateToolCalls
        [Message.mk .assistant (.items [.toolUse "x" "f" "1", .toolUse "x" "f" "1"]),
         Message.mk .user (.items [.toolResult "x" "r"])] = .ok out ∧
      countOcc "x" (collectIds .assistant toolUseId out) = 1 ∧
      countOcc "x" (collectIds .user toolResultId out) = 1 ∧
      List.Forall₂ messageShrink out
        [Message.mk .assistant (.items [.toolUse "x" "f" "1", .toolUse "x" "f" "1"]),
         Message.mk .user (.items [.toolResult "x" "r"])] ∧
      findInMessages .assistant toolUseId "x" out =
        findInMessages .assistant toolUseId "x"
          [Message.mk .assistant (.items [.toolUse "x" "f" "1", .toolUse "x" "f" "1"]),
           Message.mk .user (.items [.toolResult "x" "r"])] :=
  ⟨by decide, by decide, by decide,
    duplicateCallSingleResultScenario
      [Message.mk .assistant (.items [.toolUse "x" "f" "1", .toolUse "x" "f" "1"]),
       Message.mk .user (.items [.toolResult "x" "r"])] "x"
      [.toolUse "x" "f" "1", .toolUse "x" "f" "1"]
      (by decide) (by decide) (by decide) (by decide)⟩

/-! ## Schema Adapter: `providerizeSchema` (file `json-schema.ts`)

A `JSONSchema7` value is modelled by the parts the adapter reads or writes —
`type`, `format`, `required`, `additionalProperties`, `properties`, `items` —
plus an opaque `extra` association list standing for every other field, which
the source's object spreads (`{...schema}`) carry along unchanged.  A schema
node may also be a plain boolean (`JSONSchema7Definition`), and `items` may be
a single schema or an array of schemas (the tuple form). -/

mutual
inductive JSONSchema where
  | bool (b : Bool)
  | obj (ty : Option String) (format : Option String)
        (required : Option (List String))
        (additionalProperties : Option JSONSchema)
        (properties : Option SProps)
        (items : Option SItems)
        (extra : List (String × String))

inductive SProps where
  | nil
  | cons (key : String) (value : JSONSchema) (rest : SProps)

inductive SItems where
  | one (s : JSONSchema)
  | many (l : SList)

inductive SList where
  | nil
  | cons (s : JSONSchema) (rest : SList)
end

/-- `Object.keys(schema.properties)` in declaration order. -/
def spropsKeys : SProps → List String
  | .nil => []
  | .cons key _ rest => key :: spropsKeys rest

/-- `typeof s === "object" && !Array.isArray(s) && s.type === "object"`:
a non-boolean schema node whose `type` is `"object"`. -/
def JSONSchema.isObjectTyped : JSONSchema → Bool
  | .bool _ => false
  | .obj ty _ _ _ _ _ _ => decide (ty = some "object")

mutual
/-- `providerizeSchema(provider, schema)` of the source.  Non-object nodes and
object nodes without a `properties` map are returned unchanged; otherwise every
property is processed, and for provider `"openai"` the node additionally gets
`required = Object.keys(properties)` and `additionalProperties = false`. -/
def providerizeSchema (provider : String) : JSONSchema → JSONSchema
  | .bool b => .bool b
  | .obj ty format required addProps props items extra =>
    match props with
    | some ps =>
      if ty = some "object" then
        if provider = "openai" then
          .obj ty format (some (spropsKeys ps)) (some (.bool false))
            (some (providerizeProps provider ps)) items extra
        else
          .obj ty format required addProps
            (some (providerizeProps provider ps)) items extra
      else .obj ty format required addProps (some ps) items extra
    | none => .obj ty format required addProps none items extra
termination_by s => 3 * sizeOf s
decreasing_by
  all_goals simp_wf
  all_goals simp_arith

/-- The `for (const [key, property] of Object.entries(schema.properties))` loop. -/
def providerizeProps (provider : String) : SProps → SProps
  | .nil => .nil
  | .cons key value rest =>
    .cons key (providerizeProp provider value) (providerizeProps provider rest)
termination_by ps => 3 * sizeOf ps + 2
decreasing_by
  all_goals simp_wf
  all_goals simp_arith

/-- The body of the per-property loop: strip `format: "uri"` for the
`"openai"` / `"google"` providers, then recurse into object-typed properties,
and into the `items` of array-typed properties when `items` is a single
object-typed schema; every other property passes through. -/
def providerizeProp (provider : String) : JSONSchema → JSONSchema
  | .bool b => .bool b
  | .obj ty format required addProps props items extra =>
    let format' :=
      if (provider = "openai" ∨ provider = "google") ∧ format = some "uri" then none
      else format
    if ty = some "object" then
      providerizeSchema provider (.obj ty format' required addProps props items extra)
    else
      match items with
      | some (.one s) =>
        if ty = some "array" ∧ s.isObjectTyped then
          .obj ty format' required addProps props
            (some (.one (providerizeSchema provider s))) extra
        else .obj ty format' required addProps props items extra
      | _ => .obj ty format' required addProps props items extra
termination_by p => 3 * sizeOf p + 1
decreasing_by
  all_goals simp_wf
  all_goals try split
  all_goals simp_arith
  all_goals
    rename_i _hmatch hfmt
  all_goals
    obtain ⟨-, hfmt2⟩ := hfmt
  all_goals
    subst hfmt2
  all_goals simp_arith
end

theorem spropsKeys_providerizeProps (provider : String) :
    ∀ (ps : SProps), spropsKeys (providerizeProps provider ps) = spropsKeys ps
  | .nil => by simp [providerizeProps]
  | .cons k v rest => by
      simp [providerizeProps, spropsKeys, spropsKeys_providerizeProps provider rest]

theorem isObjectTyped_providerizeSchema (provider : String) (s : JSONSchema) :
    (providerizeSchema provider s).isObjectTyped = s.isObjectTyped := by
  cases s with
  | bool b => simp [providerizeSchema]
  | obj ty f r a props it e =>
    cases props with
    | none => simp [providerizeSchema]
    | some ps =>
      by_cases hty : ty = some "object"
      · by_cases hp : provider = "openai" <;>
          simp [providerizeSchema, hty, hp, JSONSchema.isObjectTyped]
      · simp [providerizeSchema, hty]

/-! Step equations for the adapter, proved from the compiled equations of the
well-founded definitions; all later reasoning rewrites with these. -/

theorem providerizeSchema_bool (provider : String) (b : Bool) :
    providerizeSchema provider (.bool b) = .bool b := by
  rw [providerizeSchema.eq_def]

theorem providerizeSchema_noProps (provider : String) (ty f : Option String)
    (r : Option (List String)) (a : Option JSONSchema) (it : Option SItems)
    (e : List (String × String)) :
    providerizeSchema provider (.obj ty f r a none it e) =
      .obj ty f r a none it e := by
  rw [providerizeSchema.eq_def]

theorem providerizeSchema_notObj (provider : String) (ty f : Option String)
    (r : Option (List String)) (a : Option JSONSchema) (ps : SProps)
    (it : Option SItems) (e : List (String × String)) (hty : ty ≠ some "object") :
    providerizeSchema provider (.obj ty f r a (some ps) it e) =
      .obj ty f r a (some ps) it e := by
  rw [providerizeSchema.eq_def]
  simp [hty]

theorem providerizeSchema_openaiObj (f : Option String) (r : Option (List String))
    (a : Option JSONSchema) (ps : SProps) (it : Option SItems)
    (e : List (String × String)) :
    providerizeSchema "openai" (.obj (some "object") f r a (some ps) it e) =
      .obj (some "object") f (some (spropsKeys ps)) (some (.bool false))
        (some (providerizeProps "openai" ps)) it e := by
  rw [providerizeSchema.eq_def]
  simp

theorem providerizeSchema_otherObj (provider : String) (f : Option String)
    (r : Option (List String)) (a : Option JSONSchema) (ps : SProps)
    (it : Option SItems) (e : List (String × String)) (hp : provider ≠ "openai") :
    providerizeSchema provider (.obj (some "object") f r a (some ps) it e) =
      .obj (some "object") f r a (some (providerizeProps provider ps)) it e := by
  rw [providerizeSchema.eq_def]
  simp [hp]

theorem providerizeProps_nil (provider : String) :
    providerizeProps provider .nil = .nil := by
  rw [providerizeProps.eq_def]

theorem providerizeProps_cons (provider : String) (k : String) (v : JSONSchema)
    (rest : SProps) :
    providerizeProps provider (.cons k v rest) =
      .cons k (providerizeProp provider v) (providerizeProps provider rest) := by
  rw [providerizeProps.eq_def]

theorem providerizeProp_bool (provider : String) (b : Bool) :
    providerizeProp provider (.bool b) = .bool b := by
  rw [providerizeProp.eq_def]

/-- Stripping `format: "uri"` first and then running the property step is the
same as running the property step directly. -/
theorem providerizeProp_strip (provider : String) (ty : Option String)
    (r : Option (List String)) (a : Option JSONSchema) (props : Option SProps)
    (it : Option SItems) (e : List (String × String))
    (hpv : provider = "openai" ∨ provider = "google") :
    providerizeProp provider (.obj ty (some "uri") r a props it e) =
      providerizeProp provider (.obj ty none r a props it e) := by
  rw [providerizeProp.eq_def, providerizeProp.eq_def]
  simp [hpv]

theorem providerizeProp_objectTy (provider : String) (f : Option String)
    (r : Option (List String)) (a : Option JSONSchema) (props : Option SProps)
    (it : Option SItems) (e : List (String × String))
    (hf : ¬((provider = "openai" ∨ provider = "google") ∧ f = some "uri")) :
    providerizeProp provider (.obj (some "object") f r a props it e) =
      providerizeSchema provider (.obj (some "object") f r a props it e) := by
  rw [providerizeProp.eq_def]
  simp [hf]

theorem providerizeProp_noItems (provider : String) (ty f : Option String)
    (r : Option (List String)) (a : Option JSONSchema) (props : Option SProps)
    (e : List (String × String))
    (hf : ¬((provider = "openai" ∨ provider = "google") ∧ f = some "uri"))
    (hty : ty ≠ some "object") :
    providerizeProp provider (.obj ty f r a props none e) =
      .obj ty f r a props none e := by
  rw [providerizeProp.eq_def]
  simp [hf, hty]

theorem providerizeProp_manyItems (provider : String) (ty f : Option String)
    (r : Option (List String)) (a : Option JSONSchema) (props : Option SProps)
    (l : SList) (e : List (String × String))
    (hf : ¬((provider = "openai" ∨ provider = "google") ∧ f = some "uri"))
    (hty : ty ≠ some "object") :
    providerizeProp provider (.obj ty f r a props (some (.many l)) e) =
      .obj ty f r a props (some (.many l)) e := by
  rw [providerizeProp.eq_def]
  simp [hf, hty]

theorem providerizeProp_oneObj (provider : String) (ty f : Option String)
    (r : Option (List String)) (a : Option JSONSchema) (props : Option SProps)
    (sc : JSONSchema) (e : List (String × String))
    (hf : ¬((provider = "openai" ∨ provider = "google") ∧ f = some "uri"))
    (_hty : ty ≠ some "object") (harr : ty = some "array" ∧ sc.isObjectTyped) :
    providerizeProp provider (.obj ty f r a props (some (.one sc)) e) =
      .obj ty f r a props (some (.one (providerizeSchema provider sc))) e := by
  rw [providerizeProp.eq_def]
  simp [hf, harr]

theorem providerizeProp_oneOther (provider : String) (ty f : Option String)
    (r : Option (List String)) (a : Option JSONSchema) (props : Option SProps)
    (sc : JSONSchema) (e : List (String × String))
    (hf : ¬((provider = "openai" ∨ provider = "google") ∧ f = some "uri"))
    (hty : ty ≠ some "object") (harr : ¬(ty = some "array" ∧ sc.isObjectTyped)) :
    providerizeProp provider (.obj ty f r a props (some (.one sc)) e) =
      .obj ty f r a props (some (.one sc)) e := by
  rw [providerizeProp.eq_def]
  simp [hf, hty, harr]

mutual

theorem providerizeSchema_idemAux (provider : String) (s : JSONSchema) :
    providerizeSchema provider (providerizeSchema provider s) =
      providerizeSchema provider s := by
  cases s with
  | bool b =>
    rw [providerizeSchema_bool]
    exact providerizeSchema_bool provider b
  | obj ty f r a props it e =>
    cases props with
    | none =>
      rw [providerizeSchema_noProps]
      exact providerizeSchema_noProps provider ty f r a it e
    | some ps =>
      by_cases hty : ty = some "object"
      · subst hty
        by_cases hp : provider = "openai"
        · subst hp
          rw [providerizeSchema_openaiObj, providerizeSchema_openaiObj,
            spropsKeys_providerizeProps, providerizeProps_idemAux "openai" ps]
        · rw [providerizeSchema_otherObj provider f r a ps it e hp,
            providerizeSchema_otherObj provider f r a _ it e hp,
            providerizeProps_idemAux provider ps]
      · rw [providerizeSchema_notObj provider ty f r a ps it e hty]
        exact providerizeSchema_notObj provider ty f r a ps it e hty
termination_by 3 * sizeOf s
decreasing_by
  all_goals simp_wf
  all_goals simp_arith

theorem providerizeProps_idemAux (provider : String) (ps : SProps) :
    providerizeProps provider (providerizeProps provider ps) =
      providerizeProps provider ps := by
  cases ps with
  | nil =>
    rw [providerizeProps_nil]
    exact providerizeProps_nil provider
  | cons k v rest =>
    rw [providerizeProps_cons, providerizeProps_cons,
      providerizeProp_idemAux provider v, providerizeProps_idemAux provider rest]
termination_by 3 * sizeOf ps + 2
decreasing_by
  all_goals simp_wf
  all_goals simp_arith

/-- Running the property step on a value the object branch already sent
through `providerizeSchema` (whose `format` is not strippable) is a no-op. -/
theorem providerizeObjProp_idemAux (provider : String) (f : Option String)
    (r : Option (List String)) (a : Option JSONSchema) (props : Option SProps)
    (it : Option SItems) (e : List (String × String))
    (hf : ¬((provider = "openai" ∨ provider = "google") ∧ f = some "uri")) :
    providerizeProp provider
        (providerizeSchema provider (.obj (some "object") f r a props it e)) =
      providerizeSchema provider (.obj (some "object") f r a props it e) := by
  cases props with
  | none =>
    rw [providerizeSchema_noProps]
    rw [providerizeProp_objectTy provider f r a none it e hf]
    exact providerizeSchema_noProps provider _ f r a it e
  | some ps =>
    by_cases hp : provider = "openai"
    · subst hp
      rw [providerizeSchema_openaiObj]
      rw [providerizeProp_objectTy "openai" f _ _ _ it e hf]
      rw [providerizeSchema_openaiObj, spropsKeys_providerizeProps,
        providerizeProps_idemAux "openai" ps]
    · rw [providerizeSchema_otherObj provider f r a ps it e hp]
      rw [providerizeProp_objectTy provider f r a _ it e hf]
      rw [providerizeSchema_otherObj provider f r a _ it e hp,
        providerizeProps_idemAux provider ps]
termination_by 3 * sizeOf (JSONSchema.obj (some "object") f r a props it e)
decreasing_by
  all_goals simp_wf
  all_goals simp_arith

/-- Idempotence of the property step on non-object-typed properties whose
`format` is not strippable. -/
theorem providerizeNonObjProp_idemAux (provider : String) (ty f : Option String)
    (r : Option (List String)) (a : Option JSONSchema) (props : Option SProps)
    (it : Option SItems) (e : List (String × String))
    (hty : ty ≠ some "object")
    (hf : ¬((provider = "openai" ∨ provider = "google") ∧ f = some "uri")) :
    providerizeProp provider (providerizeProp provider (.obj ty f r a props it e)) =
      providerizeProp provider (.obj ty f r a props it e) := by
  cases it with
  | none =>
    rw [providerizeProp_noItems provider ty f r a props e hf hty]
    exact providerizeProp_noItems provider ty f r a props e hf hty
  | some sit =>
    cases sit with
    | many l =>
      rw [providerizeProp_manyItems provider ty f r a props l e hf hty]
      exact providerizeProp_manyItems provider ty f r a props l e hf hty
    | one sc =>
      by_cases harr : ty = some "array" ∧ sc.isObjectTyped
      · have harr2 : ty = some "array" ∧
            (providerizeSchema provider sc).isObjectTyped := by
          rw [isObjectTyped_providerizeSchema]
          exact harr
        rw [providerizeProp_oneObj provider ty f r a props sc e hf hty harr]
        rw [providerizeProp_oneObj provider ty f r a props _ e hf hty harr2]
        rw [providerizeSchema_idemAux provider sc]
      · rw [providerizeProp_oneOther provider ty f r a props sc e hf hty harr]
        exact providerizeProp_oneOther provider ty f r a props sc e hf hty harr
termination_by 3 * sizeOf (JSONSchema.obj ty f r a props it e)
decreasing_by
  all_goals simp_wf
  all_goals omega

theorem providerizeProp_idemAux (provider : String) (p : JSONSchema) :
    providerizeProp provider (providerizeProp provider p) =
      providerizeProp provider p := by
  cases p with
  | bool b =>
    rw [providerizeProp_bool]
    exact providerizeProp_bool provider b
  | obj ty f r a props it e =>
    by_cases hty : ty = some "object"
    · subst hty
      by_cases hs : (provider = "openai" ∨ provider = "google") ∧ f = some "uri"
      · obtain ⟨hpv, hfu⟩ := hs
        subst hfu
        rw [providerizeProp_strip provider (some "object") r a props it e hpv]
        rw [providerizeProp_objectTy provider none r a props it e (by simp)]
        exact providerizeObjProp_idemAux provider none r a props it e (by simp)
      · rw [providerizeProp_objectTy provider f r a props it e hs]
        exact providerizeObjProp_idemAux provider f r a props it e hs
    · by_cases hs : (provider = "openai" ∨ provider = "google") ∧ f = some "uri"
      · obtain ⟨hpv, hfu⟩ := hs
        subst hfu
        rw [providerizeProp_strip provider ty r a props it e hpv]
        exact providerizeNonObjProp_idemAux provider ty none r a props it e hty (by simp)
      · exact providerizeNonObjProp_idemAux provider ty f r a props it e hty hs
termination_by 3 * sizeOf p + 1
decreasing_by
  all_goals simp_wf
  all_goals try subst hty
  all_goals try subst hfu
  all_goals simp_arith

end

/-- C6.  Schema adaptation is idempotent: adapting an already-adapted schema
for the same backend produces a structurally identical schema, for every
backend name and every schema node. -/
theorem providerizeSchema_idempotent (provider : String) (s : JSONSchema) :
    providerizeSchema provider (providerizeSchema provider s) =
      providerizeSchema provider s :=
  providerizeSchema_idemAux provider s

/-- C5.  For an object-typed input schema with properties `{p1, p2}` and
`required = [p1]`, the `"openai"` adaptation yields `required = [p1, p2]`
(all property names, in declaration order) and `additionalProperties = false`,
whatever the other fields are. -/
theorem providerizeSchema_openai_strict_top (p1 p2 : String) (v1 v2 : JSONSchema)
    (f : Option String) (a : Option JSONSchema) (it : Option SItems)
    (e : List (String × String)) :
    providerizeSchema "openai"
      (.obj (some "object") f (some [p1]) a
        (some (.cons p1 v1 (.cons p2 v2 .nil))) it e) =
      .obj (some "object") f (some [p1, p2]) (some (.bool false))
        (some (.cons p1 (providerizeProp "openai" v1)
          (.cons p2 (providerizeProp "openai" v2) .nil))) it e := by
  rw [providerizeSchema_openaiObj, providerizeProps_cons, providerizeProps_cons,
    providerizeProps_nil]
  simp [spropsKeys]

/-! ## The strict rule on nodes the adapter actually reaches

`strictOk` states that every object-typed node with a properties map that the
adapter's recursion visits — the top-level node, object-typed property values,
and single object-typed `items` of array-typed property values — carries
`required = all property names` and `additionalProperties = false`. -/

mutual

def strictOk : JSONSchema → Prop
  | .bool _ => True
  | .obj ty _ required addProps props _ _ =>
    match props with
    | some ps =>
      if ty = some "object" then
        required = some (spropsKeys ps) ∧ addProps = some (.bool false) ∧
          strictOkProps ps
      else True
    | none => True
termination_by s => 3 * sizeOf s
decreasing_by
  all_goals simp_wf
  all_goals simp_arith

def strictOkProps : SProps → Prop
  | .nil => True
  | .cons _ v rest => strictOkProp v ∧ strictOkProps rest
termination_by ps => 3 * sizeOf ps + 2
decreasing_by
  all_goals simp_wf
  all_goals simp_arith

def strictOkProp : JSONSchema → Prop
  | .bool _ => True
  | .obj ty f r a props items e =>
    if ty = some "object" then strictOk (.obj ty f r a props items e)
    else
      match items with
      | some (.one s) =>
        if ty = some "array" ∧ s.isObjectTyped then strictOk s else True
      | _ => True
termination_by p => 3 * sizeOf p + 1
decreasing_by
  all_goals simp_wf
  all_goals simp_arith

end

theorem strictOk_bool (b : Bool) : strictOk (.bool b) := by
  rw [strictOk.eq_def]
  trivial

theorem strictOk_noProps (ty f : Option String) (r : Option (List String))
    (a : Option JSONSchema) (it : Option SItems) (e : List (String × String)) :
    strictOk (.obj ty f r a none it e) := by
  rw [strictOk.eq_def]
  trivial

theorem strictOk_notObj (ty f : Option String) (r : Option (List String))
    (a : Option JSONSchema) (ps : SProps) (it : Option SItems)
    (e : List (String × String)) (hty : ty ≠ some "object") :
    strictOk (.obj ty f r a (some ps) it e) := by
  rw [strictOk.eq_def]
  simp [hty]

theorem strictOk_objIff (f : Option String) (r : Option (List String))
    (a : Option JSONSchema) (ps : SProps) (it : Option SItems)
    (e : List (String × String)) :
    strictOk (.obj (some "object") f r a (some ps) it e) ↔
      (r = some (spropsKeys ps) ∧ a = some (.bool false) ∧ strictOkProps ps) := by
  rw [strictOk.eq_def]
  simp

theorem strictOkProps_nil : strictOkProps .nil := by
  rw [strictOkProps.eq_def]
  trivial

theorem strictOkProps_consIff (k : String) (v : JSONSchema) (rest : SProps) :
    strictOkProps (.cons k v rest) ↔ (strictOkProp v ∧ strictOkProps rest) := by
  rw [strictOkProps.eq_def]

theorem strictOkProp_bool (b : Bool) : strictOkProp (.bool b) := by
  rw [strictOkProp.eq_def]
  trivial

theorem strictOkProp_objIff (f : Option String) (r : Option (List String))
    (a : Option JSONSchema) (props : Option SProps) (it : Option SItems)
    (e : List (String × String)) :
    strictOkProp (.obj (some "object") f r a props it e) ↔
      strictOk (.obj (some "object") f r a props it e) := by
  rw [strictOkProp.eq_def]
  simp

theorem strictOkProp_noItems (ty f : Option String) (r : Option (List String))
    (a : Option JSONSchema) (props : Option SProps) (e : List (String × String))
    (hty : ty ≠ some "object") :
    strictOkProp (.obj ty f r a props none e) := by
  rw [strictOkProp.eq_def]
  simp [hty]

theorem strictOkProp_manyItems (ty f : Option String) (r : Option (List String))
    (a : Option JSONSchema) (props : Option SProps) (l : SList)
    (e : List (String × String)) (hty : ty ≠ some "object") :
    strictOkProp (.obj ty f r a props (some (.many l)) e) := by
  rw [strictOkProp.eq_def]
  simp [hty]

theorem strictOkProp_oneObjIff (ty f : Option String) (r : Option (List String))
    (a : Option JSONSchema) (props : Option SProps) (sc : JSONSchema)
    (e : List (String × String)) (_hty : ty ≠ some "object")
    (harr : ty = some "array" ∧ sc.isObjectTyped) :
    strictOkProp (.obj ty f r a props (some (.one sc)) e) ↔ strictOk sc := by
  rw [strictOkProp.eq_def]
  simp [harr]

theorem strictOkProp_oneOther (ty f : Option String) (r : Option (List String))
    (a : Option JSONSchema) (props : Option SProps) (sc : JSONSchema)
    (e : List (String × String)) (hty : ty ≠ some "object")
    (harr : ¬(ty = some "array" ∧ sc.isObjectTyped)) :
    strictOkProp (.obj ty f r a props (some (.one sc)) e) := by
  rw [strictOkProp.eq_def]
  simp [hty, harr]

mutual

theorem strictOk_providerizeAux (s : JSONSchema) :
    strictOk (providerizeSchema "openai" s) := by
  cases s with
  | bool b =>
    rw [providerizeSchema_bool]
    exact strictOk_bool b
  | obj ty f r a props it e =>
    cases props with
    | none =>
      rw [providerizeSchema_noProps]
      exact strictOk_noProps ty f r a it e
    | some ps =>
      by_cases hty : ty = some "object"
      · subst hty
        rw [providerizeSchema_openaiObj, strictOk_objIff]
        refine ⟨?_, rfl, strictOkProps_providerizeAux ps⟩
        rw [spropsKeys_providerizeProps]
      · rw [providerizeSchema_notObj "openai" ty f r a ps it e hty]
        exact strictOk_notObj ty f r a ps it e hty
termination_by 3 * sizeOf s
decreasing_by
  all_goals simp_wf
  all_goals simp_arith

theorem strictOkProps_providerizeAux (ps : SProps) :
    strictOkProps (providerizeProps "openai" ps) := by
  cases ps with
  | nil =>
    rw [providerizeProps_nil]
    exact strictOkProps_nil
  | cons k v rest =>
    rw [providerizeProps_cons, strictOkProps_consIff]
    exact ⟨strictOkProp_providerizeAux v, strictOkProps_providerizeAux rest⟩
termination_by 3 * sizeOf ps + 2
decreasing_by
  all_goals simp_wf
  all_goals simp_arith

theorem strictOkProp_providerizeAux (p : JSONSchema) :
    strictOkProp (providerizeProp "openai" p) := by
  cases p with
  | bool b =>
    rw [providerizeProp_bool]
    exact strictOkProp_bool b
  | obj ty f r a props it e =>
    by_cases hty : ty = some "object"
    · subst hty
      by_cases hs : (("openai" : String) = "openai" ∨ ("openai" : String) = "google") ∧
          f = some "uri"
      · obtain ⟨-, hfu⟩ := hs
        subst hfu
        rw [providerizeProp_strip "openai" (some "object") r a props it e (Or.inl rfl)]
        rw [providerizeProp_objectTy "openai" none r a props it e (by simp)]
        cases props with
        | none =>
          rw [providerizeSchema_noProps, strictOkProp_objIff]
          exact strictOk_noProps _ none r a it e
        | some ps =>
          rw [providerizeSchema_openaiObj, strictOkProp_objIff, strictOk_objIff]
          refine ⟨?_, rfl, strictOkProps_providerizeAux ps⟩
          rw [spropsKeys_providerizeProps]
      · rw [providerizeProp_objectTy "openai" f r a props it e hs]
        cases props with
        | none =>
          rw [providerizeSchema_noProps, strictOkProp_objIff]
          exact strictOk_noProps _ f r a it e
        | some ps =>
          rw [providerizeSchema_openaiObj, strictOkProp_objIff, strictOk_objIff]
          refine ⟨?_, rfl, strictOkProps_providerizeAux ps⟩
          rw [spropsKeys_providerizeProps]
    · by_cases hs : (("openai" : String) = "openai" ∨ ("openai" : String) = "google") ∧
          f = some "uri"
      · obtain ⟨-, hfu⟩ := hs
        subst hfu
        rw [providerizeProp_strip "openai" ty r a props it e (Or.inl rfl)]
        exact strictOkPropStripped_providerizeAux ty r a props it e hty
      · exact strictOkPropKeep_providerizeAux ty f r a props it e hty hs
termination_by 3 * sizeOf p + 1
decreasing_by
  all_goals simp_wf
  all_goals try subst hty
  all_goals try subst hfu
  all_goals simp_arith

theorem strictOkPropStripped_providerizeAux (ty : Option String)
    (r : Option (List String)) (a : Option JSONSchema) (props : Option SProps)
    (it : Option SItems) (e : List (String × String)) (hty : ty ≠ some "object") :
    strictOkProp (providerizeProp "openai" (.obj ty none r a props it e)) :=
  strictOkPropKeep_providerizeAux ty none r a props it e hty (by simp)
termination_by 3 * sizeOf (JSONSchema.obj ty (none : Option String) r a props it e) + 1
decreasing_by
  all_goals simp_wf

theorem strictOkPropKeep_providerizeAux (ty f : Option String)
    (r : Option (List String)) (a : Option JSONSchema) (props : Option SProps)
    (it : Option SItems) (e : List (String × String)) (hty : ty ≠ some "object")
    (hf : ¬((("openai" : String) = "openai" ∨ ("openai" : String) = "google") ∧
      f = some "uri")) :
    strictOkProp (providerizeProp "openai" (.obj ty f r a props it e)) := by
  cases it with
  | none =>
    rw [providerizeProp_noItems "openai" ty f r a props e hf hty]
    exact strictOkProp_noItems ty f r a props e hty
  | some sit =>
    cases sit with
    | many l =>
      rw [providerizeProp_manyItems "openai" ty f r a props l e hf hty]
      exact strictOkProp_manyItems ty f r a props l e hty
    | one sc =>
      by_cases harr : ty = some "array" ∧ sc.isObjectTyped
      · have harr2 : ty = some "array" ∧
            (providerizeSchema "openai" sc).isObjectTyped := by
          rw [isObjectTyped_providerizeSchema]
          exact harr
        rw [providerizeProp_oneObj "openai" ty f r a props sc e hf hty harr]
        rw [strictOkProp_oneObjIff ty f r a props _ e hty harr2]
        exact strictOk_providerizeAux sc
      · rw [providerizeProp_oneOther "openai" ty f r a props sc e hf hty harr]
        exact strictOkProp_oneOther ty f r a props sc e hty harr
termination_by 3 * sizeOf (JSONSchema.obj ty f r a props it e)
decreasing_by
  all_goals simp_wf
  all_goals omega

end

/-- C10 (amended).  For the strict backend `"openai"`, the adapter applies the
strict rule to the top-level object node and, recursively, to every object node
it reaches: object-typed property values of processed object nodes, and single
object-typed `items` of array-typed property values.  Nodes reached through any
other path (a non-object top level, tuple-form `items`, arrays nested inside
arrays) are left untouched. -/
theorem providerizeSchema_openai_strict_recursive (s : JSONSchema) :
    strictOk (providerizeSchema "openai" s) :=
  strictOk_providerizeAux s

/-- C10 (counterexample).  A top-level *array* schema whose `items` is an
object schema with properties `{a}` is returned completely unchanged by the
`"openai"` adaptation: the nested object — reached through array items — keeps
`required = []` (not `["a"]`) and gets no `additionalProperties = false`,
refuting the claim that every nested object-typed schema with properties is
made strict. -/
theorem arrayItemsObjectNotAdapted :
    providerizeSchema "openai"
        (.obj (some "array") none none none none
          (some (.one (.obj (some "object") none (some []) none
            (some (.cons "a" (.bool true) .nil)) none []))) []) =
      .obj (some "array") none none none none
        (some (.one (.obj (some "object") none (some []) none
          (some (.cons "a" (.bool true) .nil)) none []))) [] ∧
    (some ([] : List String) ≠ some ["a"]) ∧
    ((none : Option JSONSchema) ≠ some (.bool false)) := by
  refine ⟨?_, by simp, by simp⟩
  rw [providerizeSchema_noProps]

/-! ## Stream Translator: `convertToAnthropicStream`
(file `convert-to-anthropic-stream.ts`)

A Generation Event (`TextStreamPart` of the AI SDK) is modelled by one
constructor per `case` label of the source's `switch`, plus `other (ty)`
standing for any event type outside the handled set and the explicit
ignore-list — the `default` branch of the switch.  An upstream `error` event
carries an optional structured error code and a message; the translator reads
only the message.  The `TransformStream` is modelled as a fold over the event
list threading the content-block `index`; `controller.error` aborts the stream
(`Except.error`), after which nothing further is emitted. -/

inductive FinishReason where
  | stop
  | length
  | toolCalls
  | contentFilter
  | error
  | otherReason
deriving DecidableEq, Repr

/-- Modelled from the spec: `mapAnthropicStopReason` lives in
`anthropic-api-types.ts`, which is not among the given sources.  The spec only
requires that `message_delta` carries "the mapped finish reason"; the concrete
mapping below follows the Anthropic wire vocabulary. -/
def mapAnthropicStopReason : FinishReason → Option String
  | .stop => some "end_turn"
  | .length => some "max_tokens"
  | .toolCalls => some "tool_use"
  | _ => some "end_turn"

inductive TextStreamPart where
  | start_step
  | finish_step (finishReason : FinishReason) (inputTokens outputTokens : Option Nat)
  | finish
  | text_start
  | text_delta (text : String)
  | text_end
  | tool_input_start (id toolName : String)
  | tool_input_delta (delta : String)
  | tool_input_end
  | tool_call (toolCallId toolName input : String)
  | error (code : Option String) (message : String)
  | start
  | abort
  | raw
  | source
  | file
  | reasoning_start
  | reasoning_delta
  | reasoning_end
  | other (ty : String)
deriving DecidableEq, Repr

inductive ContentBlock where
  | text (text : String)
  | tool_use (id name input : String)
deriving DecidableEq, Repr

inductive DeltaBlock where
  | text_delta (text : String)
  | input_json_delta (partial_json : String)
deriving DecidableEq, Repr

/-- The outbound wire events.  `message_start` carries the fields the source
writes (`id = "msg_" + Date.now()`, role, model); the clock value is passed in
as `now`.  The `error` chunk has exactly the fields the source ever sets on it:
a type, a message, and — only after the proxy's rewrite — a `code`; the
translator itself never sets `code`, so it is `none` on translated chunks. -/
inductive AnthropicStreamChunk where
  | message_start (id role model : String)
  | message_delta (stop_reason : Option String) (input_tokens output_tokens : Nat)
  | message_stop
  | content_block_start (index : Nat) (content_block : ContentBlock)
  | content_block_delta (index : Nat) (delta : DeltaBlock)
  | content_block_stop (index : Nat)
  | error (ty message : String) (code : Option String)
deriving DecidableEq, Repr

/-- The body of the `transform(chunk, controller)` switch: the chunks enqueued
for one Generation Event, together with the updated block index; the `default`
branch fails the stream. -/
def transformChunk (now : Nat) (index : Nat) :
    TextStreamPart → Except String (List AnthropicStreamChunk × Nat)
  | .start_step =>
    .ok ([.message_start ("msg_" ++ toString now) "assistant"
      "claude-4-sonnet-20250514"], index)
  | .finish_step reason it ot =>
    .ok ([.message_delta (mapAnthropicStopReason reason) (it.getD 0) (ot.getD 0)], index)
  | .finish => .ok ([.message_stop], 0)
  | .text_start => .ok ([.content_block_start index (.text "")], index)
  | .text_delta t => .ok ([.content_block_delta index (.text_delta t)], index)
  | .text_end => .ok ([.content_block_stop index], index + 1)
  | .tool_input_start id name =>
    .ok ([.content_block_start index (.tool_use id name "{}")], index)
  | .tool_input_delta d =>
    .ok ([.content_block_delta index (.input_json_delta d)], index)
  | .tool_input_end => .ok ([.content_block_stop index], index + 1)
  | .tool_call id name input =>
    .ok ([.content_block_start index (.tool_use id name input),
      .content_block_stop index], index + 1)
  | .error _ message => .ok ([.error "api_error" message none], index)
  | .start | .abort | .raw | .source | .file
  | .reasoning_start | .reasoning_delta | .reasoning_end => .ok ([], index)
  | .other ty => .error ("Unhandled chunk type: " ++ ty)

/-- `convertToAnthropicStream` over a finished list of Generation Events: the
wire chunks emitted in order, or the stream failure raised by the `default`
branch. -/
def convertToAnthropicStream (now : Nat) : Nat → List TextStreamPart →
    Except String (List AnthropicStreamChunk)
  | _, [] => .ok []
  | index, chunk :: rest =>
    match transformChunk now index chunk with
    | .error e => .error e
    | .ok (out, index') =>
      match convertToAnthropicStream now index' rest with
      | .error e => .error e
      | .ok outs => .ok (out ++ outs)

/-! ## The proxy's per-chunk error rewrite (file `anthropic-proxy.ts`,
streaming path)

Before writing each chunk to the response, the proxy checks
`chunk.type === "error" && providerName === "openai" &&
chunk.error?.code === "server_error"` and, when it matches, replaces the chunk
by a rate-limit-shaped error. -/

def rateLimitErrorChunk : AnthropicStreamChunk :=
  .error "rate_limit_error"
    "OpenAI server temporarily unavailable. Please retry your request."
    (some "rate_limit_error")

/-- The transformation the proxy's `WritableStream.write` applies to a chunk
before emission (the debug-file side effects are out of scope). -/
def proxyStreamWrite (providerName : String) :
    AnthropicStreamChunk → AnthropicStreamChunk
  | .error ty message code =>
    if providerName = "openai" ∧ code = some "server_error" then rateLimitErrorChunk
    else .error ty message code
  | c => c

/-- The full streaming path for one request: translate the Generation Events,
then apply the proxy's per-chunk rewrite to everything written out. -/
def streamPipeline (providerName : String) (now : Nat)
    (events : List TextStreamPart) : Except String (List AnthropicStreamChunk) :=
  (convertToAnthropicStream now 0 events).map
    (List.map (proxyStreamWrite providerName))

/-- C7.  The Generation Event sequence
`[step-start, text-start, text-delta "hi", text-end, step-finish stop,
stream-finish]` translates to exactly
`[message_start, content_block_start 0 text, content_block_delta 0 "hi",
content_block_stop 0, message_delta stop_reason, message_stop]`, in this order
with no other events, for every clock value and usage counters. -/
theorem convertToAnthropicStream_scenario (now : Nat) (it ot : Option Nat) :
    convertToAnthropicStream now 0
      [.start_step, .text_start, .text_delta "hi", .text_end,
       .finish_step .stop it ot, .finish] =
    .ok [.message_start ("msg_" ++ toString now) "assistant" "claude-4-sonnet-20250514",
         .content_block_start 0 (.text ""),
         .content_block_delta 0 (.text_delta "hi"),
         .content_block_stop 0,
         .message_delta (mapAnthropicStopReason .stop) (it.getD 0) (ot.getD 0),
         .message_stop] := rfl

/-- C8.  A Generation Event outside the handled set and the explicit
ignore-list (the `other` variant, carrying any type tag) anywhere in the event
sequence makes the translation fail the whole stream with an error instead of
silently dropping the event. -/
theorem convertToAnthropicStream_unknown_fails (now index : Nat)
    (events : List TextStreamPart) (ty : String)
    (hmem : TextStreamPart.other ty ∈ events) :
    ∃ msg, convertToAnthropicStream now index events = .error msg := by
  induction events generalizing index with
  | nil => exact absurd hmem (List.not_mem_nil _)
  | cons chunk rest ih =>
    rcases List.mem_cons.mp hmem with rfl | hmem'
    · exact ⟨"Unhandled chunk type: " ++ ty, rfl⟩
    · cases chunk <;> simp only [convertToAnthropicStream, transformChunk] <;>
        first
          | exact ⟨_, rfl⟩
          | (obtain ⟨msg, hmsg⟩ := ih _ hmem'
             exact ⟨msg, by rw [hmsg]⟩)

theorem convertToAnthropicStream_unknown_fails_witness :
    (TextStreamPart.other "tool-error" ∈
      [TextStreamPart.text_start, TextStreamPart.other "tool-error"]) ∧
    ∃ msg, convertToAnthropicStream 0 0
      [TextStreamPart.text_start, TextStreamPart.other "tool-error"] = .error msg :=
  ⟨by decide,
    convertToAnthropicStream_unknown_fails 0 0
      [TextStreamPart.text_start, TextStreamPart.other "tool-error"] "tool-error"
      (by decide)⟩

/-- C9 (code evaluated at the failing input).  A streamed upstream error event
from provider `"openai"` whose structured code is `"server_error"` reaches the
caller as the translator's `api_error` chunk, carrying the original message and
no `code` field — it is *not* rewritten to the rate-limit-shaped error, because
the translator already discarded the structured code that the proxy's
`chunk.error?.code === "server_error"` test looks for. -/
theorem openaiServerErrorNotRemapped :
    streamPipeline "openai" 0
        [.error (some "server_error") "The server had an error processing your request."] =
      .ok [.error "api_error" "The server had an error processing your request." none] ∧
    AnthropicStreamChunk.error "api_error"
        "The server had an error processing your request." none ≠ rateLimitErrorChunk ∧
    proxyStreamWrite "openai"
        (.error "api_error" "The server had an error processing your request."
          (some "server_error")) = rateLimitErrorChunk := by
  refine ⟨rfl, by decide, ?_⟩
  simp [proxyStreamWrite, rateLimitErrorChunk]

end Anyclaude
